import Mathlib

/-!
Verification of the down-git core: a GitHub URL parser (`parseGitHubUrl`) and a
repository downloader (`downloadRepository` with `fetchDirectoryContents` and
`addFileToZip`).  The JavaScript source is shallowly embedded:

* JS strings are modelled by `String` (a wrapper around `List Char`); the JS
  string primitives used by the source (`trim`, `endsWith`, `slice(0,-1)`,
  `includes`, `indexOf` + `slice`, `split("/")`, `join("/")`, `pop`) are
  modelled by executable functions on `List Char` below.
* The GitHub REST API is modelled by a mock (`MockApi`): finite response tables
  for the four kinds of requests the code issues, keyed by the exact request
  URL strings the code builds.
* `async`/`await` sequencing is direct sequencing; a thrown exception is an
  `Option JsError` result component; the progress callback is modelled by
  accumulating the `(percent, message)` events in the state.
* The recursion of `fetchDirectoryContents` follows entry paths returned by the
  mock, so it needs explicit fuel; running out of fuel produces the
  distinguished `JsError.fuelOut`, which no `catch` in the source treats as a
  404, so it propagates like any other non-Axios error.
* `Math.floor((i / len) * 40)` is modelled by exact natural division
  `i * 40 / len`; IEEE rounding is monotone, so both the float and the exact
  formula are non-decreasing in `i`, which is all the progress claims use.
-/

namespace DownGit

/-! ## JS string primitives on `List Char` -/

/-- Model of `String.prototype.trim` on the left side: drop leading whitespace. -/
def jsTrimLeft (cs : List Char) : List Char :=
  cs.dropWhile (·.isWhitespace)

/-- Model of `String.prototype.trim` on the right side: drop trailing whitespace. -/
def jsTrimRight (cs : List Char) : List Char :=
  (cs.reverse.dropWhile (·.isWhitespace)).reverse

/-- Model of `url.trim()`. -/
def jsTrim (cs : List Char) : List Char :=
  jsTrimRight (jsTrimLeft cs)

/-- Model of `url.endsWith("/")` for the single-character suffix used by the source. -/
def jsEndsWithSlash (cs : List Char) : Bool :=
  cs.getLast? = some '/'

/-- The cleaning prelude of `parseGitHubUrl`: `url.trim()` followed by
`url.slice(0, -1)` when the string ends with `"/"`. -/
def jsClean (cs : List Char) : List Char :=
  let t := jsTrim cs
  if jsEndsWithSlash t then t.dropLast else t

/-- Model of `url.indexOf(m)` combined with `url.slice(indexOf + m.length)`:
returns the text after the first occurrence of `m`, or `none` when `m` does not
occur (`indexOf === -1`).  `url.includes(m)` is `(sliceAfter m url).isSome`. -/
def sliceAfter (m : List Char) : List Char → Option (List Char)
  | [] => if m.isPrefixOf ([] : List Char) then some (List.drop m.length []) else none
  | c :: s =>
    if m.isPrefixOf (c :: s) then some (List.drop m.length (c :: s))
    else sliceAfter m s

/-- Model of `s.split("/")` for a one-character separator: JS semantics, so the
result is never empty and `"".split("/") = [""]`. -/
def jsSplit (sep : Char) : List Char → List (List Char)
  | [] => [[]]
  | c :: cs =>
    if c = sep then [] :: jsSplit sep cs
    else
      match jsSplit sep cs with
      | [] => [[c]]
      | s :: ss => (c :: s) :: ss

/-- Model of `parts.join("/")`. -/
def joinWithSlash : List (List Char) → List Char
  | [] => []
  | [a] => a
  | a :: b :: rest => a ++ '/' :: joinWithSlash (b :: rest)

/-- Model of `path.split("/")` at the `String` level (the core `String.splitOn`
is not kernel-reducible, so the downloader uses this executable model). -/
def jsSplitStr (s : String) : List String :=
  (jsSplit '/' s.data).map String.mk

/-! ## Parser data model (`github-parser`) -/

/-- The `type` field of `ParsedGitHubUrl`: `"file" | "directory"`. -/
inductive UrlType where
  | file
  | directory
deriving DecidableEq

/-- The parser result record `ParsedGitHubUrl`. -/
structure ParsedGitHubUrl where
  owner : String
  repo : String
  branch : String
  path : String
  type : UrlType
deriving DecidableEq

/-- The segment analysis of `parseGitHubUrl` after the path parts have been
extracted (source lines 38-67): require at least owner and repo, inspect a
`tree`/`blob` specifier when more than 3 segments are present, default to
branch `"main"`, empty path and directory type otherwise. -/
def parseParts (pathParts : List (List Char)) : Option ParsedGitHubUrl :=
  if pathParts.length < 2 then none
  else
    let owner := pathParts.getD 0 []
    let repo := pathParts.getD 1 []
    if 3 < pathParts.length then
      let specifier := pathParts.getD 2 []
      if specifier = "tree".data ∨ specifier = "blob".data then
        let branch := pathParts.getD 3 []
        let ty := if specifier = "tree".data then UrlType.directory else UrlType.file
        let path := if 4 < pathParts.length then joinWithSlash (pathParts.drop 4) else []
        some ⟨⟨owner⟩, ⟨repo⟩, ⟨branch⟩, ⟨path⟩, ty⟩
      else some ⟨⟨owner⟩, ⟨repo⟩, "main", "", UrlType.directory⟩
    else some ⟨⟨owner⟩, ⟨repo⟩, "main", "", UrlType.directory⟩

/-- Embedding of `parseGitHubUrl`: trim, strip one trailing `/`, require the
substring `"github.com"`, locate `"github.com/"`, split the remainder on `/`
and analyse the segments.  The source's `try`/`catch` is dead (none of the
string operations throws), so it is not modelled. -/
def parseGitHubUrl (url0 : String) : Option ParsedGitHubUrl :=
  let url := jsClean url0.data
  if (sliceAfter "github.com".data url).isNone then none
  else
    match sliceAfter "github.com/".data url with
    | none => none
    | some rest => parseParts (jsSplit '/' rest)

/-! ## Downloader data model (`github-service`) -/

/-- A thrown JS error as the downloader's `catch` blocks classify it: an Axios
error carrying an HTTP response status, an Axios error without a response
(network failure), a plain `Error` with a message, or the artificial
out-of-fuel marker for the unbounded recursion (no `catch` treats it as a 404,
so it propagates like any other non-Axios error). -/
inductive JsError where
  | http (status : Nat)
  | network
  | jsOther (msg : String)
  | fuelOut
deriving DecidableEq

/-- The `type` field of a GitHub contents row. -/
inductive ContentType where
  | file
  | dir
  | symlink
  | submodule
deriving DecidableEq

/-- The fields of the `GitHubContent` API row that the downloader reads. -/
structure GitHubContent where
  name : String
  path : String
  sha : String
  size : Nat
  download_url : Option String
  type : ContentType

/-- The blob endpoint's response body: `{ content, encoding }`. -/
structure BlobData where
  content : String
  encoding : String

/-- One ZIP entry's payload: raw bytes from a `download_url` fetch, a base64
text added with `{ base64: true }`, a plain text entry (the failure
placeholder), or a folder marker created by `zip.folder`. -/
inductive Payload where
  | raw (bytes : List Nat)
  | base64 (content : String)
  | text (message : String)
  | dir
deriving DecidableEq

/-- Association-list lookup keyed by the exact URL string; `none` when the URL
was not mocked. -/
def lookupA {β : Type} (key : String) : List (String × β) → Option β
  | [] => none
  | (k, v) :: rest => if key = k then some v else lookupA key rest

/-- A mocked GitHub API: one finite response table per request family
(directory listing, single-file metadata, blob by sha, raw download by URL).
An unmocked URL responds with HTTP 404. -/
structure MockApi where
  dirs : List (String × Except JsError (List GitHubContent))
  files : List (String × Except JsError GitHubContent)
  blobs : List (String × Except JsError BlobData)
  raws : List (String × Except JsError (List Nat))

/-- Response of the contents endpoint when the code expects a directory listing. -/
def MockApi.listDirRes (api : MockApi) (url : String) : Except JsError (List GitHubContent) :=
  (lookupA url api.dirs).getD (Except.error (JsError.http 404))

/-- Response of the contents endpoint when the code expects one file's metadata. -/
def MockApi.getFileRes (api : MockApi) (url : String) : Except JsError GitHubContent :=
  (lookupA url api.files).getD (Except.error (JsError.http 404))

/-- Response of the git blob endpoint. -/
def MockApi.getBlobRes (api : MockApi) (url : String) : Except JsError BlobData :=
  (lookupA url api.blobs).getD (Except.error (JsError.http 404))

/-- Response of a raw `download_url` fetch. -/
def MockApi.getRawRes (api : MockApi) (url : String) : Except JsError (List Nat) :=
  (lookupA url api.raws).getD (Except.error (JsError.http 404))

/-- The observable state of one job: the JSZip instance's entries in insertion
order, and the `(percent, message)` events delivered to `onProgress` so far in
chronological order. -/
structure St where
  zip : List (String × Payload)
  events : List (Nat × String)
deriving DecidableEq

/-- One `onProgress(percent, message)` call. -/
def emit (st : St) (percent : Nat) (message : String) : St :=
  { st with events := st.events ++ [(percent, message)] }

/-- `zip.file(name, payload)`: replace the payload when the name exists,
append a new entry otherwise. -/
def zipFile (z : List (String × Payload)) (name : String) (payload : Payload) :
    List (String × Payload) :=
  match lookupA name z with
  | some _ => z.map fun e => if e.1 = name then (name, payload) else e
  | none => z ++ [(name, payload)]

/-- `zip.folder(name)`: create the folder entry when it is missing. -/
def zipFolder (z : List (String × Payload)) (name : String) : List (String × Payload) :=
  match lookupA name z with
  | some _ => z
  | none => z ++ [(name, Payload.dir)]

/-- The contents-endpoint URL template
`https://api.github.com/repos/OWNER/REPO/contents/PATH?ref=BRANCH`. -/
def contentsUrl (owner repo path branch : String) : String :=
  "https://api.github.com/repos/" ++ owner ++ "/" ++ repo ++ "/contents/" ++ path
    ++ "?ref=" ++ branch

/-- The blob-endpoint URL template
`https://api.github.com/repos/OWNER/REPO/git/blobs/SHA`. -/
def blobUrl (owner repo sha : String) : String :=
  "https://api.github.com/repos/" ++ owner ++ "/" ++ repo ++ "/git/blobs/" ++ sha

/-- The placeholder text written for a file whose fetch failed. -/
def failText : String :=
  "Error: Could not download this file. It might be too large or inaccessible."

/-- The per-directory progress value `30 + Math.floor((i / len) * 40)` in exact
arithmetic. -/
def dirProgress (i len : Nat) : Nat :=
  30 + i * 40 / len

/-- Embedding of `addFileToZip`: fetch the file's metadata from the contents
endpoint; when `download_url` is null, fetch the blob by `sha` and add the
content with `{ base64: true }` if the encoding tag is `"base64"` (any other
encoding throws); otherwise fetch the raw bytes from `download_url`.  The
function-level `catch` turns every failure into a placeholder text entry at
`zipPath || path.split("/").pop() || "unknown-file"`, so the function never
throws. -/
def addFileToZip (api : MockApi) (owner repo branch path zipPath : String) (st : St) : St :=
  let apiUrl := contentsUrl owner repo path branch
  let fallbackName :=
    if zipPath = "" then
      let lastSeg := (jsSplitStr path).getLastD ""
      if lastSeg = "" then "unknown-file" else lastSeg
    else zipPath
  let placeholder : St := { st with zip := zipFile st.zip fallbackName (Payload.text failText) }
  match api.getFileRes apiUrl with
  | Except.error _ => placeholder
  | Except.ok fileInfo =>
    match fileInfo.download_url with
    | none =>
      match api.getBlobRes (blobUrl owner repo fileInfo.sha) with
      | Except.error _ => placeholder
      | Except.ok blobData =>
        if blobData.encoding = "base64" then
          { st with
            zip := zipFile st.zip (if zipPath = "" then fileInfo.name else zipPath)
              (Payload.base64 blobData.content) }
        else placeholder
    | some durl =>
      match api.getRawRes durl with
      | Except.error _ => placeholder
      | Except.ok bytes =>
        { st with
          zip := zipFile st.zip (if zipPath = "" then fileInfo.name else zipPath)
            (Payload.raw bytes) }

/-- The body of the `for` loop of `fetchDirectoryContents`, processing the
remaining items of one listing: emit the progress event, then create a folder
and recurse for a directory entry (`recur` is the recursive call at one less
fuel), add the file for a file entry, and skip symlink/submodule entries.  The
first propagating exception stops the loop. -/
def processItems (api : MockApi) (owner repo branch : String)
    (recur : String → String → St → St × Option JsError) :
    List GitHubContent → Nat → Nat → String → St → St × Option JsError
  | [], _, _, _, st => (st, none)
  | item :: rest, i, len, zipPath, st =>
    let itemZipPath := if zipPath = "" then item.name else zipPath ++ "/" ++ item.name
    let st1 := emit st (dirProgress i len) ("Processing " ++ item.path ++ "...")
    match item.type with
    | ContentType.dir =>
      let st2 : St := { st1 with zip := zipFolder st1.zip itemZipPath }
      match recur item.path itemZipPath st2 with
      | (st3, none) => processItems api owner repo branch recur rest (i + 1) len zipPath st3
      | (st3, some e) => (st3, some e)
    | ContentType.file =>
      processItems api owner repo branch recur rest (i + 1) len zipPath
        (addFileToZip api owner repo branch item.path itemZipPath st1)
    | _ => processItems api owner repo branch recur rest (i + 1) len zipPath st1

/-- Embedding of `fetchDirectoryContents`: list the directory from the contents
endpoint and process each item in order; the surrounding `try`/`catch` turns an
Axios 404 (from the listing, the only 404 that can reach it) into an
empty-folder entry at `zipPath || path` and rethrows everything else. -/
def fetchDirectoryContents (api : MockApi) (owner repo branch : String)
    (fuel : Nat) (path zipPath : String) (st : St) : St × Option JsError :=
  match fuel with
  | 0 => (st, some JsError.fuelOut)
  | fuel' + 1 =>
    let step :=
      match api.listDirRes (contentsUrl owner repo path branch) with
      | Except.error e => (st, some e)
      | Except.ok contents =>
        processItems api owner repo branch
          (fun p zp s => fetchDirectoryContents api owner repo branch fuel' p zp s)
          contents 0 contents.length zipPath st
    match step with
    | (st2, none) => (st2, none)
    | (st2, some e) =>
      if e = JsError.http 404 then
        ({ st2 with zip := zipFolder st2.zip (if zipPath = "" then path else zipPath) }, none)
      else (st2, some e)

/-- Embedding of `getZipFilename`. -/
def getZipFilename (repo path : String) : String :=
  if path = "" then repo ++ ".zip"
  else repo ++ "-" ++ (jsSplitStr path).getLastD "" ++ ".zip"

/-- The `try` block of `downloadRepository`: dispatch on the parsed type, then
emit the three fixed phase events (generation and the save hand-off are
external effects with no observable state here). -/
def tryBody (api : MockApi) (parsedUrl : ParsedGitHubUrl) (fuel : Nat) : St × Option JsError :=
  let st0 : St := ⟨[], []⟩
  let step :=
    match parsedUrl.type with
    | UrlType.file =>
      (addFileToZip api parsedUrl.owner parsedUrl.repo parsedUrl.branch parsedUrl.path "" st0,
        none)
    | UrlType.directory =>
      fetchDirectoryContents api parsedUrl.owner parsedUrl.repo parsedUrl.branch fuel
        parsedUrl.path "" st0
  match step with
  | (st1, some e) => (st1, some e)
  | (st1, none) =>
    let st2 := emit st1 70 "Creating ZIP file..."
    let st3 := emit st2 80 "Generating ZIP file..."
    let st4 := emit st3 90 "Starting download..."
    (st4, none)

/-- A value thrown out of `downloadRepository`: either one of the three mapped
`new Error(...)` messages, or the original error rethrown unchanged. -/
inductive Thrown where
  | err (msg : String)
  | js (e : JsError)
deriving DecidableEq

/-- The `catch` block of `downloadRepository`: for an Axios error the status
is compared with 403, 404 and 401 in turn and the matching user-facing message
is thrown; everything else (including an Axios error without a response
status) is rethrown unchanged. -/
def mapCatch : JsError → Thrown
  | JsError.http status =>
    if status = 403 then
      Thrown.err "GitHub API rate limit exceeded. Please try again later."
    else if status = 404 then
      Thrown.err "Repository, folder, or file not found. Please check the URL and try again."
    else if status = 401 then
      Thrown.err
        "Authentication required. Private repositories are not supported without authentication."
    else Thrown.js (JsError.http status)
  | e => Thrown.js e

/-- Embedding of `downloadRepository`: run the `try` body and map a propagated
error through the `catch` block; on success the source returns `true`. -/
def downloadRepository (api : MockApi) (parsedUrl : ParsedGitHubUrl) (fuel : Nat) :
    St × Except Thrown Bool :=
  match tryBody api parsedUrl fuel with
  | (st, none) => (st, Except.ok true)
  | (st, some e) => (st, Except.error (mapCatch e))

/-! ## Statement scaffolding -/

/-- A well-formed URL segment: non-empty, without `/` and without whitespace.
This captures the valid-input side conditions of the spec's parser properties. -/
def cleanSeg (s : String) : Prop :=
  s ≠ "" ∧ ∀ c ∈ s.data, c ≠ '/' ∧ c.isWhitespace = false

instance (s : String) : Decidable (cleanSeg s) := by
  unfold cleanSeg; infer_instance

/-- `https://github.com/` followed by the given path segments joined with `/`. -/
def segUrl (segs : List String) : String :=
  ⟨"https://github.com/".data ++ joinWithSlash (segs.map String.data)⟩

/-- The spec's error-mapping table, written from the spec's words: HTTP 403
maps to the rate-limit-exceeded message, 404 to the not-found message, 401 to
the authentication-required message, and any other failure passes through as
the underlying error.  To be compared with the code's `mapCatch`. -/
def specErrorMapping : JsError → Thrown
  | JsError.http status =>
    if status = 403 then
      Thrown.err "GitHub API rate limit exceeded. Please try again later."
    else if status = 404 then
      Thrown.err "Repository, folder, or file not found. Please check the URL and try again."
    else if status = 401 then
      Thrown.err
        "Authentication required. Private repositories are not supported without authentication."
    else Thrown.js (JsError.http status)
  | e => Thrown.js e

/-- Pointwise relation between a partially-failing run's ZIP entries and a
reference run's entries: the same path, and either the same payload or the
failure placeholder text. -/
def entryRel (a b : String × Payload) : Prop :=
  a.1 = b.1 ∧ (a.2 = b.2 ∨ a.2 = Payload.text failText)

/-- Relation between the observable states of two runs: identical progress
events, and pointwise `entryRel`-related ZIP entries. -/
def StRel (s₁ s₂ : St) : Prop :=
  s₁.events = s₂.events ∧ List.Forall₂ entryRel s₁.zip s₂.zip

/-- Every item name in every mocked directory listing is non-empty
(decidable well-formedness of a mock). -/
def MockApi.wfNamesB (api : MockApi) : Bool :=
  api.dirs.all fun entry =>
    match entry.2 with
    | Except.ok l => l.all fun item => item.name ≠ ""
    | Except.error _ => true

/-- A mock with one file and one nested directory after it, exhibiting the
progress sequence 30, 50, 30 of a nested traversal. -/
def demoApiC1 : MockApi :=
  { dirs :=
      [ (contentsUrl "o" "r" "" "main",
          Except.ok
            [ ⟨"f.txt", "f.txt", "s1", 1, none, ContentType.file⟩
            , ⟨"d", "d", "s2", 0, none, ContentType.dir⟩ ])
      , (contentsUrl "o" "r" "d" "main",
          Except.ok [ ⟨"g.txt", "d/g.txt", "s3", 1, none, ContentType.file⟩ ]) ]
    files := []
    blobs := []
    raws := [] }

/-- A mock whose listings fail: path `d` with a 404 and path `e` with a 500. -/
def demoApiC5 : MockApi :=
  { dirs :=
      [ (contentsUrl "o" "r" "d" "main", Except.error (JsError.http 404))
      , (contentsUrl "o" "r" "e" "main", Except.error (JsError.http 500)) ]
    files := []
    blobs := []
    raws := [] }

/-- A mock for the blob retrieval path: one large file without `download_url`,
whose blob responds with base64 content, and a second one whose blob responds
with an unsupported encoding. -/
def demoApiC4 : MockApi :=
  { dirs := []
    files :=
      [ (contentsUrl "o" "r" "big.bin" "main",
          Except.ok ⟨"big.bin", "big.bin", "sha1", 9, none, ContentType.file⟩)
      , (contentsUrl "o" "r" "odd.bin" "main",
          Except.ok ⟨"odd.bin", "odd.bin", "sha2", 9, none, ContentType.file⟩) ]
    blobs :=
      [ (blobUrl "o" "r" "sha1", Except.ok ⟨"QUJD", "base64"⟩)
      , (blobUrl "o" "r" "sha2", Except.ok ⟨"QUJD", "utf-8"⟩) ]
    raws := [] }

/-- A two-file directory mock in which the second file's raw fetch fails with
a network error. -/
def demoApiC3 : MockApi :=
  { dirs :=
      [ (contentsUrl "o" "r" "" "main",
          Except.ok
            [ ⟨"a.txt", "a.txt", "sa", 1, some "uA", ContentType.file⟩
            , ⟨"b.txt", "b.txt", "sb", 1, some "uB", ContentType.file⟩ ]) ]
    files :=
      [ (contentsUrl "o" "r" "a.txt" "main",
          Except.ok ⟨"a.txt", "a.txt", "sa", 1, some "uA", ContentType.file⟩)
      , (contentsUrl "o" "r" "b.txt" "main",
          Except.ok ⟨"b.txt", "b.txt", "sb", 1, some "uB", ContentType.file⟩) ]
    blobs := []
    raws := [ ("uA", Except.ok [1]), ("uB", Except.error JsError.network) ] }

/-- The fully-successful variant of `demoApiC3`: the second file's raw fetch
returns bytes. -/
def demoApiC3ok : MockApi :=
  { demoApiC3 with raws := [ ("uA", Except.ok [1]), ("uB", Except.ok [2]) ] }

end DownGit

namespace DownGit

/-! ## Generic list and string lemmas -/

theorem string_eq_of_data {s t : String} (h : s.data = t.data) : s = t :=
  congrArg String.mk h

theorem exists_getLast_of_ne_nil {α : Type} (l : List α) (h : l ≠ []) :
    ∃ c, l.getLast? = some c := by
  cases hx : l.getLast? with
  | none => exact absurd (List.getLast?_eq_none_iff.mp hx) h
  | some c => exact ⟨c, rfl⟩

theorem isPrefixOf_append_self (a b : List Char) : a.isPrefixOf (a ++ b) = true := by
  induction a with
  | nil => simp [List.isPrefixOf]
  | cons x xs ih => simp [List.isPrefixOf, ih]

theorem not_isPrefixOf_cons_of_ne {a c : Char} (m s : List Char) (h : a ≠ c) :
    (a :: m).isPrefixOf (c :: s) = false := by
  simp [List.isPrefixOf, beq_eq_false_iff_ne.mpr h]

/-! ## `sliceAfter` lemmas -/

theorem sliceAfter_head_ne {a : Char} (m : List Char) (c : Char) (s : List Char)
    (h1 : m.head? = some a) (h2 : a ≠ c) :
    sliceAfter m (c :: s) = sliceAfter m s := by
  cases m with
  | nil => simp at h1
  | cons x m' =>
    have hx : x = a := by simpa using h1
    subst hx
    simp [sliceAfter, not_isPrefixOf_cons_of_ne m' s h2]

theorem sliceAfter_of_isPrefixOf {m s : List Char} (h : m.isPrefixOf s = true) :
    sliceAfter m s = some (s.drop m.length) := by
  cases s <;> simp [sliceAfter, h]

/-- After the fixed scheme prefix `https://`, the first occurrence of
`github.com/` is the literal one, whatever follows it. -/
theorem sliceAfter_marker (t : List Char) :
    sliceAfter "github.com/".data ("https://github.com/".data ++ t) = some t := by
  show sliceAfter "github.com/".data
      ('h' :: 't' :: 't' :: 'p' :: 's' :: ':' :: '/' :: '/' :: ("github.com/".data ++ t)) = some t
  rw [sliceAfter_head_ne "github.com/".data 'h' _ rfl (by decide)]
  rw [sliceAfter_head_ne "github.com/".data 't' _ rfl (by decide)]
  rw [sliceAfter_head_ne "github.com/".data 't' _ rfl (by decide)]
  rw [sliceAfter_head_ne "github.com/".data 'p' _ rfl (by decide)]
  rw [sliceAfter_head_ne "github.com/".data 's' _ rfl (by decide)]
  rw [sliceAfter_head_ne "github.com/".data ':' _ rfl (by decide)]
  rw [sliceAfter_head_ne "github.com/".data '/' _ rfl (by decide)]
  rw [sliceAfter_head_ne "github.com/".data '/' _ rfl (by decide)]
  rw [sliceAfter_of_isPrefixOf (isPrefixOf_append_self _ _), List.drop_left]

/-- The `url.includes("github.com")` check succeeds on such URLs. -/
theorem sliceAfter_sub_marker (t : List Char) :
    (sliceAfter "github.com".data ("https://github.com/".data ++ t)).isSome = true := by
  show (sliceAfter "github.com".data
      ('h' :: 't' :: 't' :: 'p' :: 's' :: ':' :: '/' :: '/' ::
        ("github.com".data ++ '/' :: t))).isSome = true
  rw [sliceAfter_head_ne "github.com".data 'h' _ rfl (by decide)]
  rw [sliceAfter_head_ne "github.com".data 't' _ rfl (by decide)]
  rw [sliceAfter_head_ne "github.com".data 't' _ rfl (by decide)]
  rw [sliceAfter_head_ne "github.com".data 'p' _ rfl (by decide)]
  rw [sliceAfter_head_ne "github.com".data 's' _ rfl (by decide)]
  rw [sliceAfter_head_ne "github.com".data ':' _ rfl (by decide)]
  rw [sliceAfter_head_ne "github.com".data '/' _ rfl (by decide)]
  rw [sliceAfter_head_ne "github.com".data '/' _ rfl (by decide)]
  rw [sliceAfter_of_isPrefixOf (isPrefixOf_append_self _ _)]
  rfl

theorem sliceAfter_isSub : ∀ (s m r : List Char), sliceAfter m s = some r → m <:+: s := by
  intro s
  induction s with
  | nil =>
    intro m r h
    cases m with
    | nil => exact List.nil_infix
    | cons a m' => simp [sliceAfter, List.isPrefixOf] at h
  | cons c s ih =>
    intro m r h
    by_cases hp : m.isPrefixOf (c :: s) = true
    · exact ( List.isPrefixOf_iff_prefix.mp hp).isInfix
    · simp only [sliceAfter, if_neg hp] at h
      exact List.infix_cons (ih m r h)

/-! ## Trim and clean lemmas -/

theorem jsTrimLeft_cons_of_not_ws {c : Char} (h : c.isWhitespace = false) (cs : List Char) :
    jsTrimLeft (c :: cs) = c :: cs := by
  simp [jsTrimLeft, List.dropWhile_cons, h]

theorem jsTrimRight_of_getLast {c : Char} (h : c.isWhitespace = false) (cs : List Char)
    (hl : cs.getLast? = some c) : jsTrimRight cs = cs := by
  have h1 : cs.reverse.head? = some c := by rw [List.head?_reverse, hl]
  cases hr : cs.reverse with
  | nil => rw [hr] at h1; simp at h1
  | cons x xs =>
    have hx : x = c := by rw [hr] at h1; simpa using h1
    subst hx
    rw [jsTrimRight, hr, List.dropWhile_cons, h]
    simp [← hr]

theorem jsTrim_eq_self {c d : Char} (cs : List Char) (hhead : cs.head? = some c)
    (hc : c.isWhitespace = false) (hlast : cs.getLast? = some d)
    (hd : d.isWhitespace = false) : jsTrim cs = cs := by
  cases cs with
  | nil => simp at hhead
  | cons x xs =>
    have hx : x = c := by simpa using hhead
    subst hx
    rw [jsTrim, jsTrimLeft_cons_of_not_ws hc, jsTrimRight_of_getLast hd _ hlast]

theorem jsClean_isSub (cs : List Char) : jsClean cs <:+: cs := by
  have h1 : jsTrimLeft cs <:+ cs := List.dropWhile_suffix _
  have h2 : jsTrimRight (jsTrimLeft cs) <+: jsTrimLeft cs := by
    have hs : (jsTrimLeft cs).reverse.dropWhile (·.isWhitespace) <:+ (jsTrimLeft cs).reverse :=
      List.dropWhile_suffix _
    have := List.reverse_prefix.mpr hs
    rwa [List.reverse_reverse] at this
  have h3 : jsClean cs <+: jsTrim cs := by
    rw [jsClean]
    split
    · exact List.dropLast_prefix _
    · exact List.prefix_refl _
  exact ((h3.trans h2).isInfix).trans h1.isInfix

/-! ## `jsSplit` and `joinWithSlash` lemmas -/

theorem jsSplit_no_slash {cs : List Char} (h : '/' ∉ cs) : jsSplit '/' cs = [cs] := by
  induction cs with
  | nil => rfl
  | cons c cs ih =>
    have hc : ¬c = '/' := fun hh => h (hh ▸ List.mem_cons_self c cs)
    have h' : '/' ∉ cs := fun hm => h (List.mem_cons_of_mem c hm)
    simp [jsSplit, hc, ih h']

theorem jsSplit_append {a : List Char} (h : '/' ∉ a) (rest : List Char) :
    jsSplit '/' (a ++ '/' :: rest) = a :: jsSplit '/' rest := by
  induction a with
  | nil => simp [jsSplit]
  | cons c cs ih =>
    have hc : ¬c = '/' := fun hh => h (hh ▸ List.mem_cons_self c cs)
    have h' : '/' ∉ cs := fun hm => h (List.mem_cons_of_mem c hm)
    simp [jsSplit, hc, ih h']

theorem jsSplit_joinWithSlash : ∀ (segs : List (List Char)), segs ≠ [] →
    (∀ s ∈ segs, '/' ∉ s) → jsSplit '/' (joinWithSlash segs) = segs
  | [], h, _ => absurd rfl h
  | [a], _, hs => by simp [joinWithSlash, jsSplit_no_slash (hs a (by simp))]
  | a :: b :: t, _, hs => by
    rw [joinWithSlash, jsSplit_append (hs a (by simp))]
    rw [jsSplit_joinWithSlash (b :: t) (by simp)
      (fun s hm => hs s (List.mem_cons_of_mem a hm))]

theorem joinWithSlash_getLast : ∀ (segs : List (List Char)), segs ≠ [] →
    (∀ s ∈ segs, s ≠ []) →
    ∃ c last, segs.getLast? = some last ∧ (joinWithSlash segs).getLast? = some c ∧ c ∈ last
  | [], h, _ => absurd rfl h
  | [a], _, hs => by
    obtain ⟨c, hc⟩ := exists_getLast_of_ne_nil a (hs a (by simp))
    exact ⟨c, a, by simp, by simpa [joinWithSlash] using hc, List.mem_of_getLast?_eq_some hc⟩
  | a :: b :: t, _, hs => by
    obtain ⟨c, last, h1, h2, h3⟩ := joinWithSlash_getLast (b :: t) (by simp)
      (fun s hm => hs s (List.mem_cons_of_mem a hm))
    refine ⟨c, last, ?_, ?_, h3⟩
    · rw [List.getLast?_cons_cons, h1]
    · show (a ++ ('/' :: joinWithSlash (b :: t))).getLast? = some c
      rw [show ('/' :: joinWithSlash (b :: t)) = ['/'] ++ joinWithSlash (b :: t) from rfl]
      rw [List.getLast?_append, List.getLast?_append, h2]
      rfl

/-! ## The master parsing lemma -/

/-- For a URL of the literal form `https://github.com/REST` whose tail does not
end in whitespace or `/`, `parseGitHubUrl` reduces to the segment analysis of
`REST.split("/")`. -/
theorem parseGitHubUrl_eq_parseParts (T : List Char) (hne : T ≠ [])
    (hlast : ∀ c, T.getLast? = some c → c.isWhitespace = false ∧ c ≠ '/') :
    parseGitHubUrl ⟨"https://github.com/".data ++ T⟩ = parseParts (jsSplit '/' T) := by
  obtain ⟨d, hd⟩ := exists_getLast_of_ne_nil T hne
  obtain ⟨hdws, hdslash⟩ := hlast d hd
  have hget : ("https://github.com/".data ++ T).getLast? = some d := by
    rw [List.getLast?_append, hd]; rfl
  have htrim : jsTrim ("https://github.com/".data ++ T) = "https://github.com/".data ++ T :=
    jsTrim_eq_self _ rfl (by decide) hget hdws
  have hclean : jsClean ("https://github.com/".data ++ T) = "https://github.com/".data ++ T := by
    rw [jsClean]
    simp only [htrim, jsEndsWithSlash, hget]
    simp [hdslash]
  have hmark := sliceAfter_marker T
  have hsub := sliceAfter_sub_marker T
  obtain ⟨v, hv⟩ := Option.isSome_iff_exists.mp hsub
  rw [parseGitHubUrl]
  simp only [show (⟨"https://github.com/".data ++ T⟩ : String).data =
    "https://github.com/".data ++ T from rfl, hclean, hmark, hv]
  simp

/-- A `segUrl` over clean segments parses to the analysis of those segments. -/
theorem parse_segUrl (segs : List String) (hne : segs ≠ [])
    (h : ∀ s ∈ segs, cleanSeg s) :
    parseGitHubUrl (segUrl segs) = parseParts (segs.map String.data) := by
  have hmapne : segs.map String.data ≠ [] := by simpa using hne
  have hclean : ∀ s ∈ segs.map String.data, s ≠ [] := by
    intro s hs
    obtain ⟨x, hx, hxs⟩ := List.mem_map.mp hs
    intro hnil
    exact (h x hx).1 (string_eq_of_data (by rw [hxs, hnil]))
  have hslash : ∀ s ∈ segs.map String.data, '/' ∉ s := by
    intro s hs hc
    obtain ⟨x, hx, hxs⟩ := List.mem_map.mp hs
    exact ((h x hx).2 '/' (hxs ▸ hc)).1 rfl
  obtain ⟨c, last, h1, h2, h3⟩ := joinWithSlash_getLast (segs.map String.data) hmapne hclean
  have hT : joinWithSlash (segs.map String.data) ≠ [] := by
    intro hTeq
    rw [hTeq] at h2
    simp at h2
  have hlast : ∀ c', (joinWithSlash (segs.map String.data)).getLast? = some c' →
      c'.isWhitespace = false ∧ c' ≠ '/' := by
    intro c' hc'
    have : c' = c := by rw [h2] at hc'; simpa using hc'.symm
    subst this
    obtain ⟨x, hx, hxs⟩ := List.mem_map.mp (List.mem_of_getLast?_eq_some h1)
    have hcx := (h x hx).2 c' (hxs ▸ h3)
    exact ⟨hcx.2, hcx.1⟩
  rw [show segUrl segs =
    (⟨"https://github.com/".data ++ joinWithSlash (segs.map String.data)⟩ : String) from rfl]
  rw [parseGitHubUrl_eq_parseParts _ hT hlast]
  rw [jsSplit_joinWithSlash _ hmapne hslash]

theorem mk_data (s : String) : String.mk s.data = s := rfl

theorem data_append (s t : String) : (s ++ t).data = s.data ++ t.data := rfl

/-! ## Parser claims -/

/-- C6: for well-formed segments, `parseGitHubUrl` maps
`https://github.com/OWNER/REPO` to the repository root with branch `main`,
empty path and directory type; `.../tree/BRANCH/P1/P2` to that branch with path
`P1/P2` and directory type; and `.../blob/BRANCH/FILE` to file type with path
`FILE`. -/
theorem c6_parse_url_forms :
    (∀ o r : String, cleanSeg o → cleanSeg r →
      parseGitHubUrl ("https://github.com/" ++ o ++ "/" ++ r) =
        some ⟨o, r, "main", "", UrlType.directory⟩) ∧
    (∀ o r b p1 p2 : String, cleanSeg o → cleanSeg r → cleanSeg b → cleanSeg p1 →
      cleanSeg p2 →
      parseGitHubUrl
          ("https://github.com/" ++ o ++ "/" ++ r ++ "/tree/" ++ b ++ "/" ++ p1 ++ "/" ++ p2) =
        some ⟨o, r, b, p1 ++ "/" ++ p2, UrlType.directory⟩) ∧
    (∀ o r b f : String, cleanSeg o → cleanSeg r → cleanSeg b → cleanSeg f →
      parseGitHubUrl ("https://github.com/" ++ o ++ "/" ++ r ++ "/blob/" ++ b ++ "/" ++ f) =
        some ⟨o, r, b, f, UrlType.file⟩) := by
  refine ⟨?_, ?_, ?_⟩
  · intro o r ho hr
    have hu : ("https://github.com/" ++ o ++ "/" ++ r) = segUrl [o, r] := by
      apply string_eq_of_data
      simp [data_append, segUrl, joinWithSlash, List.append_assoc,
        show "/".data = ['/'] from rfl]
    rw [hu, parse_segUrl [o, r] (by simp) ?_]
    · show parseParts [o.data, r.data] = _
      simp [parseParts, mk_data]
    · intro s hs
      simp only [List.mem_cons, List.not_mem_nil, or_false] at hs
      rcases hs with rfl | rfl
      · exact ho
      · exact hr
  · intro o r b p1 p2 ho hr hb hp1 hp2
    have hu : ("https://github.com/" ++ o ++ "/" ++ r ++ "/tree/" ++ b ++ "/" ++ p1
        ++ "/" ++ p2) = segUrl [o, r, "tree", b, p1, p2] := by
      apply string_eq_of_data
      simp [data_append, segUrl, joinWithSlash, List.append_assoc,
        show "/".data = ['/'] from rfl, show "/tree/".data = ['/','t','r','e','e','/'] from rfl,
        show "tree".data = ['t','r','e','e'] from rfl]
    rw [hu, parse_segUrl [o, r, "tree", b, p1, p2] (by simp) ?_]
    · show parseParts [o.data, r.data, "tree".data, b.data, p1.data, p2.data] = _
      have hpath : (p1 ++ "/" ++ p2).data = p1.data ++ '/' :: p2.data := by
        simp [data_append, List.append_assoc, show "/".data = ['/'] from rfl]
      simp [parseParts, joinWithSlash, mk_data]
      exact string_eq_of_data (by simp [hpath])
    · intro s hs
      simp only [List.mem_cons, List.not_mem_nil, or_false] at hs
      rcases hs with rfl | rfl | rfl | rfl | rfl | rfl
      · exact ho
      · exact hr
      · exact (by decide : cleanSeg "tree")
      · exact hb
      · exact hp1
      · exact hp2
  · intro o r b f ho hr hb hf
    have hu : ("https://github.com/" ++ o ++ "/" ++ r ++ "/blob/" ++ b ++ "/" ++ f) =
        segUrl [o, r, "blob", b, f] := by
      apply string_eq_of_data
      simp [data_append, segUrl, joinWithSlash, List.append_assoc,
        show "/".data = ['/'] from rfl, show "/blob/".data = ['/','b','l','o','b','/'] from rfl,
        show "blob".data = ['b','l','o','b'] from rfl]
    rw [hu, parse_segUrl [o, r, "blob", b, f] (by simp) ?_]
    · show parseParts [o.data, r.data, "blob".data, b.data, f.data] = _
      simp [parseParts, joinWithSlash, mk_data]
    · intro s hs
      simp only [List.mem_cons, List.not_mem_nil, or_false] at hs
      rcases hs with rfl | rfl | rfl | rfl | rfl
      · exact ho
      · exact hr
      · exact (by decide : cleanSeg "blob")
      · exact hb
      · exact hf

/-- Witness for C6 at concrete segments. -/
theorem c6_parse_url_forms_witness :
    parseGitHubUrl ("https://github.com/" ++ "octo" ++ "/" ++ "repo") =
        some ⟨"octo", "repo", "main", "", UrlType.directory⟩ ∧
    parseGitHubUrl ("https://github.com/" ++ "octo" ++ "/" ++ "repo" ++ "/tree/" ++ "dev"
        ++ "/" ++ "src" ++ "/" ++ "lib") =
      some ⟨"octo", "repo", "dev", "src" ++ "/" ++ "lib", UrlType.directory⟩ ∧
    parseGitHubUrl ("https://github.com/" ++ "octo" ++ "/" ++ "repo" ++ "/blob/" ++ "dev"
        ++ "/" ++ "a.txt") = some ⟨"octo", "repo", "dev", "a.txt", UrlType.file⟩ :=
  ⟨c6_parse_url_forms.1 "octo" "repo" (by decide) (by decide),
   c6_parse_url_forms.2.1 "octo" "repo" "dev" "src" "lib" (by decide) (by decide) (by decide)
     (by decide) (by decide),
   c6_parse_url_forms.2.2 "octo" "repo" "dev" "a.txt" (by decide) (by decide) (by decide)
     (by decide)⟩

/-- C7: an input without the substring `github.com/`, an input whose cleaned
form has fewer than 2 path segments after `github.com/`, and an empty or
whitespace-only input all make `parseGitHubUrl` fail with `none`. -/
theorem c7_parse_failures (s : String)
    (h : ¬ ("github.com/".data <:+: s.data) ∨
      (∀ rest, sliceAfter "github.com/".data (jsClean s.data) = some rest →
        (jsSplit '/' rest).length < 2) ∨
      jsTrim s.data = []) :
    parseGitHubUrl s = none := by
  rcases h with h1 | h2 | h3
  · have hnone : sliceAfter "github.com/".data (jsClean s.data) = none := by
      cases hx : sliceAfter "github.com/".data (jsClean s.data) with
      | none => rfl
      | some r =>
        exact absurd ((sliceAfter_isSub _ _ _ hx).trans (jsClean_isSub s.data)) h1
    simp [parseGitHubUrl, hnone, ite_self]
  · cases hx : sliceAfter "github.com/".data (jsClean s.data) with
    | none => simp [parseGitHubUrl, hx, ite_self]
    | some rest =>
      have hp : parseParts (jsSplit '/' rest) = none := by
        simp [parseParts, h2 rest hx]
      simp [parseGitHubUrl, hx, hp, ite_self]
  · have hclean : jsClean s.data = [] := by
      simp [jsClean, h3, jsEndsWithSlash]
    rw [parseGitHubUrl]
    simp only [hclean]
    rfl

/-- Witness for C7: a marker-free input and a whitespace-only input. -/
theorem c7_parse_failures_witness :
    parseGitHubUrl "hello" = none ∧ parseGitHubUrl " " = none :=
  ⟨c7_parse_failures "hello" (Or.inl (by decide)),
   c7_parse_failures " " (Or.inr (Or.inr (by decide)))⟩

/-- C8 counterexample: `https://github.com/a//` parses successfully although
its repo segment is empty, so a successful parse does not guarantee a
non-empty `repo`. -/
theorem c8_counterexample :
    (parseGitHubUrl "https://github.com/a//").map ParsedGitHubUrl.repo = some "" := rfl

/-- C8 (amended): on every successful parse the address comes from the segment
analysis of the cleaned URL; `owner` and `repo` are the first two segments
after `github.com/` (hence non-empty exactly when those segments are), and the
type is `file` exactly when the URL used a blob-style reference (a third
segment `blob` with at least four segments). -/
theorem c8_invariants_amended :
    (∀ (s : String) (addr : ParsedGitHubUrl), parseGitHubUrl s = some addr →
      ∃ rest, sliceAfter "github.com/".data (jsClean s.data) = some rest ∧
        parseParts (jsSplit '/' rest) = some addr) ∧
    (∀ (parts : List (List Char)) (addr : ParsedGitHubUrl), parseParts parts = some addr →
      addr.owner = ⟨parts.getD 0 []⟩ ∧ addr.repo = ⟨parts.getD 1 []⟩ ∧
      (addr.type = UrlType.file ↔ 3 < parts.length ∧ parts.getD 2 [] = "blob".data)) := by
  constructor
  · intro s addr h
    simp only [parseGitHubUrl] at h
    by_cases hinc : (sliceAfter "github.com".data (jsClean s.data)).isNone = true
    · rw [if_pos hinc] at h
      exact absurd h (by simp)
    · rw [if_neg hinc] at h
      cases hx : sliceAfter "github.com/".data (jsClean s.data) with
      | none => rw [hx] at h; exact absurd h (by simp)
      | some rest => rw [hx] at h; exact ⟨rest, rfl, h⟩
  · intro parts addr h
    simp only [parseParts] at h
    by_cases h2 : parts.length < 2
    · rw [if_pos h2] at h
      exact absurd h (by simp)
    rw [if_neg h2] at h
    by_cases h3 : 3 < parts.length
    · rw [if_pos h3] at h
      by_cases h4 : parts.getD 2 [] = "tree".data ∨ parts.getD 2 [] = "blob".data
      · rw [if_pos h4] at h
        obtain rfl : addr = _ := (Option.some.inj h).symm
        refine ⟨rfl, rfl, ?_⟩
        by_cases h5 : parts.getD 2 [] = "tree".data
        · simp only [if_pos h5]
          constructor
          · intro hty
            exact absurd hty (by simp)
          · rintro ⟨-, hblob⟩
            rw [h5] at hblob
            exact absurd hblob (by decide)
        · simp only [if_neg h5]
          have hblob : parts.getD 2 [] = "blob".data := h4.resolve_left h5
          rw [List.getD_eq_getElem?_getD] at hblob
          simp [h3, hblob]
      · rw [if_neg h4] at h
        obtain rfl : addr = _ := (Option.some.inj h).symm
        refine ⟨rfl, rfl, ?_⟩
        constructor
        · intro hty
          exact absurd hty (by simp)
        · rintro ⟨-, hblob⟩
          exact (h4 (Or.inr hblob)).elim
    · rw [if_neg h3] at h
      obtain rfl : addr = _ := (Option.some.inj h).symm
      refine ⟨rfl, rfl, ?_⟩
      constructor
      · intro hty
        exact absurd hty (by simp)
      · rintro ⟨hlen, -⟩
        exact (h3 hlen).elim

/-- Witness for C8 (amended) at a concrete blob URL and its segment list. -/
theorem c8_invariants_amended_witness :
    (∃ rest, sliceAfter "github.com/".data (jsClean "https://github.com/a/b".data) = some rest ∧
      parseParts (jsSplit '/' rest) = some ⟨"a", "b", "main", "", UrlType.directory⟩) ∧
    ((⟨"a", "b", "m", "f", UrlType.file⟩ : ParsedGitHubUrl).owner = ⟨["a".data, "b".data,
        "blob".data, "m".data, "f".data].getD 0 []⟩ ∧
      (⟨"a", "b", "m", "f", UrlType.file⟩ : ParsedGitHubUrl).repo = ⟨["a".data, "b".data,
        "blob".data, "m".data, "f".data].getD 1 []⟩ ∧
      ((⟨"a", "b", "m", "f", UrlType.file⟩ : ParsedGitHubUrl).type = UrlType.file ↔
        3 < (["a".data, "b".data, "blob".data, "m".data, "f".data] : List (List Char)).length ∧
          ["a".data, "b".data, "blob".data, "m".data, "f".data].getD 2 [] = "blob".data)) :=
  ⟨c8_invariants_amended.1 "https://github.com/a/b" ⟨"a", "b", "main", "", UrlType.directory⟩
      (by decide),
   c8_invariants_amended.2 ["a".data, "b".data, "blob".data, "m".data, "f".data]
      ⟨"a", "b", "m", "f", UrlType.file⟩ (by decide)⟩

/-- C10: a third segment that is neither `tree` nor `blob` (with any further
segments), and a bare `OWNER/REPO/tree` with no fourth segment, both parse
silently to the repository root address, ignoring the extra segments. -/
theorem c10_specifier_fallthrough :
    ∀ (o r x : String) (extra : List String), cleanSeg o → cleanSeg r → cleanSeg x →
      (∀ s ∈ extra, cleanSeg s) →
      ((x ≠ "tree" ∧ x ≠ "blob") ∨ extra = []) →
      parseGitHubUrl (segUrl (o :: r :: x :: extra)) =
        some ⟨o, r, "main", "", UrlType.directory⟩ := by
  intro o r x extra ho hr hx hextra hcase
  rw [parse_segUrl _ (by simp) ?_]
  swap
  · intro s hs
    simp only [List.mem_cons] at hs
    rcases hs with rfl | rfl | rfl | hs
    · exact ho
    · exact hr
    · exact hx
    · exact hextra s hs
  rcases hcase with ⟨hxt, hxb⟩ | rfl
  · cases extra with
    | nil =>
      show parseParts [o.data, r.data, x.data] = _
      simp [parseParts, mk_data]
    | cons e es =>
      show parseParts (o.data :: r.data :: x.data :: (e :: es).map String.data) = _
      have hspec : ¬ (x.data = "tree".data ∨ x.data = "blob".data) := by
        rintro (hh | hh)
        · exact hxt (string_eq_of_data hh)
        · exact hxb (string_eq_of_data hh)
      simp [parseParts, hspec, mk_data]
  · show parseParts [o.data, r.data, x.data] = _
    simp [parseParts, mk_data]

/-- Witness for C10 at `releases/tag/v1` and at a bare `tree`. -/
theorem c10_specifier_fallthrough_witness :
    parseGitHubUrl (segUrl ["o", "r", "releases", "tag", "v1"]) =
        some ⟨"o", "r", "main", "", UrlType.directory⟩ ∧
    parseGitHubUrl (segUrl ["o", "r", "tree"]) =
        some ⟨"o", "r", "main", "", UrlType.directory⟩ :=
  ⟨c10_specifier_fallthrough "o" "r" "releases" ["tag", "v1"] (by decide) (by decide)
      (by decide) (by decide) (Or.inl (by decide)),
   c10_specifier_fallthrough "o" "r" "tree" [] (by decide) (by decide) (by decide)
      (by intro s hs; simp at hs) (Or.inr rfl)⟩

/-! ## Downloader lemmas -/

theorem addFileToZip_events (api : MockApi) (owner repo branch path zipPath : String)
    (st : St) :
    (addFileToZip api owner repo branch path zipPath st).events = st.events := by
  rw [addFileToZip]
  repeat' split
  all_goals rfl

/-- Every progress event present after running the listing loop either was
already present or lies in `[30, 70)`, provided the recursive calls have the
same property. -/
theorem processItems_events (api : MockApi) (owner repo branch : String)
    (recur : String → String → St → St × Option JsError)
    (hrec : ∀ p zp st e, e ∈ (recur p zp st).1.events →
      e ∈ st.events ∨ (30 ≤ e.1 ∧ e.1 < 70)) :
    ∀ (items : List GitHubContent) (i len : Nat) (zipPath : String) (st : St),
      i + items.length ≤ len →
      ∀ e, e ∈ (processItems api owner repo branch recur items i len zipPath st).1.events →
        e ∈ st.events ∨ (30 ≤ e.1 ∧ e.1 < 70) := by
  intro items i len zipPath st
  induction items, i, len, zipPath, st using processItems.induct api owner repo branch recur with
  | case1 i len zipPath st =>
    intro _ e h
    exact Or.inl (by simpa [processItems] using h)
  | case2 item rest i len zipPath st itemZipPath st1 hty st2 st3 heq ih =>
    intro hlen e h
    have hilt : i < len := by
      simp only [List.length_cons] at hlen
      omega
    have h40 : i * 40 / len < 40 := by
      rw [Nat.div_lt_iff_lt_mul (Nat.lt_of_le_of_lt (Nat.zero_le i) hilt)]
      omega
    have hemit : ∀ x : Nat × String, x ∈ st1.events →
        x ∈ st.events ∨ (30 ≤ x.1 ∧ x.1 < 70) := by
      intro x hx
      rcases List.mem_append.mp hx with hx | hx
      · exact Or.inl hx
      · rcases List.mem_singleton.mp hx with rfl
        refine Or.inr ⟨Nat.le_add_right 30 _, ?_⟩
        simp only [dirProgress]
        omega
    simp only [processItems, hty, heq] at h
    rcases ih (by simp only [List.length_cons] at hlen; omega) e h with h3 | h3
    · rcases hrec item.path itemZipPath st2 e (by rw [heq]; exact h3) with h4 | h4
      · exact hemit e h4
      · exact Or.inr h4
    · exact Or.inr h3
  | case3 item rest i len zipPath st itemZipPath st1 hty st2 st3 err heq =>
    intro hlen e h
    have hilt : i < len := by
      simp only [List.length_cons] at hlen
      omega
    have h40 : i * 40 / len < 40 := by
      rw [Nat.div_lt_iff_lt_mul (Nat.lt_of_le_of_lt (Nat.zero_le i) hilt)]
      omega
    have hemit : ∀ x : Nat × String, x ∈ st1.events →
        x ∈ st.events ∨ (30 ≤ x.1 ∧ x.1 < 70) := by
      intro x hx
      rcases List.mem_append.mp hx with hx | hx
      · exact Or.inl hx
      · rcases List.mem_singleton.mp hx with rfl
        refine Or.inr ⟨Nat.le_add_right 30 _, ?_⟩
        simp only [dirProgress]
        omega
    simp only [processItems, hty, heq] at h
    rcases hrec item.path itemZipPath st2 e (by rw [heq]; exact h) with h4 | h4
    · exact hemit e h4
    · exact Or.inr h4
  | case4 item rest i len zipPath st itemZipPath st1 hty ih =>
    intro hlen e h
    have hilt : i < len := by
      simp only [List.length_cons] at hlen
      omega
    have h40 : i * 40 / len < 40 := by
      rw [Nat.div_lt_iff_lt_mul (Nat.lt_of_le_of_lt (Nat.zero_le i) hilt)]
      omega
    have hemit : ∀ x : Nat × String, x ∈ st1.events →
        x ∈ st.events ∨ (30 ≤ x.1 ∧ x.1 < 70) := by
      intro x hx
      rcases List.mem_append.mp hx with hx | hx
      · exact Or.inl hx
      · rcases List.mem_singleton.mp hx with rfl
        refine Or.inr ⟨Nat.le_add_right 30 _, ?_⟩
        simp only [dirProgress]
        omega
    simp only [processItems, hty] at h
    rcases ih (by simp only [List.length_cons] at hlen; omega) e h with h3 | h3
    · rw [addFileToZip_events] at h3
      exact hemit e h3
    · exact Or.inr h3
  | case5 item rest i len zipPath st st1 hty1 hty2 ih =>
    intro hlen e h
    have hilt : i < len := by
      simp only [List.length_cons] at hlen
      omega
    have h40 : i * 40 / len < 40 := by
      rw [Nat.div_lt_iff_lt_mul (Nat.lt_of_le_of_lt (Nat.zero_le i) hilt)]
      omega
    have hemit : ∀ x : Nat × String, x ∈ st1.events →
        x ∈ st.events ∨ (30 ≤ x.1 ∧ x.1 < 70) := by
      intro x hx
      rcases List.mem_append.mp hx with hx | hx
      · exact Or.inl hx
      · rcases List.mem_singleton.mp hx with rfl
        refine Or.inr ⟨Nat.le_add_right 30 _, ?_⟩
        simp only [dirProgress]
        omega
    have hstep : processItems api owner repo branch recur (item :: rest) i len zipPath st =
        processItems api owner repo branch recur rest (i + 1) len zipPath st1 := by
      rw [processItems]
      cases htyv : item.type
      · exact absurd htyv hty2
      · exact absurd htyv hty1
      · rfl
      · rfl
    rw [hstep] at h
    rcases ih (by simp only [List.length_cons] at hlen; omega) e h with h3 | h3
    · exact hemit e h3
    · exact Or.inr h3

/-- Every progress event present after a `fetchDirectoryContents` call either
was already present or lies in `[30, 70)`. -/
theorem fetchDirectoryContents_events (api : MockApi) (owner repo branch : String) :
    ∀ (fuel : Nat) (path zipPath : String) (st : St),
      ∀ e ∈ (fetchDirectoryContents api owner repo branch fuel path zipPath st).1.events,
        e ∈ st.events ∨ (30 ≤ e.1 ∧ e.1 < 70) := by
  intro fuel path zipPath st
  induction fuel, path, zipPath, st using fetchDirectoryContents.induct api owner repo branch with
  | case1 path zipPath st =>
    intro e h
    exact Or.inl (by simpa [fetchDirectoryContents] using h)
  | case2 path zipPath st fuel' step st3 heq ih =>
    intro e h
    have heqB : (match api.listDirRes (contentsUrl owner repo path branch) with
        | Except.error err => (st, some err)
        | Except.ok contents =>
          processItems api owner repo branch
            (fun p zp s => fetchDirectoryContents api owner repo branch fuel' p zp s)
            contents 0 contents.length zipPath st) = (st3, none) := heq
    have hst3 : ∀ x : Nat × String, x ∈ st3.events →
        x ∈ st.events ∨ (30 ≤ x.1 ∧ x.1 < 70) := by
      intro x hx
      cases hls : api.listDirRes (contentsUrl owner repo path branch) with
      | error err =>
        rw [hls] at heqB
        simp only [Prod.mk.injEq] at heqB
        exact absurd heqB.2 (by simp)
      | ok contents =>
        rw [hls] at heqB
        dsimp only [] at heqB
        refine processItems_events api owner repo branch
          (fun p zp s => fetchDirectoryContents api owner repo branch fuel' p zp s) ih
          contents 0 contents.length zipPath st (by omega) x ?_
        rw [heqB]
        exact hx
    simp only [fetchDirectoryContents] at h
    rw [heqB] at h
    exact hst3 e h
  | case3 path zipPath st fuel' step st3 heq ih =>
    intro e h
    have heqB : (match api.listDirRes (contentsUrl owner repo path branch) with
        | Except.error err => (st, some err)
        | Except.ok contents =>
          processItems api owner repo branch
            (fun p zp s => fetchDirectoryContents api owner repo branch fuel' p zp s)
            contents 0 contents.length zipPath st) = (st3, some (JsError.http 404)) := heq
    have hst3 : ∀ x : Nat × String, x ∈ st3.events →
        x ∈ st.events ∨ (30 ≤ x.1 ∧ x.1 < 70) := by
      intro x hx
      cases hls : api.listDirRes (contentsUrl owner repo path branch) with
      | error err =>
        rw [hls] at heqB
        simp only [Prod.mk.injEq] at heqB
        exact Or.inl (by rw [heqB.1]; exact hx)
      | ok contents =>
        rw [hls] at heqB
        dsimp only [] at heqB
        refine processItems_events api owner repo branch
          (fun p zp s => fetchDirectoryContents api owner repo branch fuel' p zp s) ih
          contents 0 contents.length zipPath st (by omega) x ?_
        rw [heqB]
        exact hx
    simp only [fetchDirectoryContents] at h
    rw [heqB] at h
    exact hst3 e h
  | case4 path zipPath st fuel' step st3 e2 heq hne ih =>
    intro e h
    have heqB : (match api.listDirRes (contentsUrl owner repo path branch) with
        | Except.error err => (st, some err)
        | Except.ok contents =>
          processItems api owner repo branch
            (fun p zp s => fetchDirectoryContents api owner repo branch fuel' p zp s)
            contents 0 contents.length zipPath st) = (st3, some e2) := heq
    have hst3 : ∀ x : Nat × String, x ∈ st3.events →
        x ∈ st.events ∨ (30 ≤ x.1 ∧ x.1 < 70) := by
      intro x hx
      cases hls : api.listDirRes (contentsUrl owner repo path branch) with
      | error err =>
        rw [hls] at heqB
        simp only [Prod.mk.injEq] at heqB
        exact Or.inl (by rw [heqB.1]; exact hx)
      | ok contents =>
        rw [hls] at heqB
        dsimp only [] at heqB
        refine processItems_events api owner repo branch
          (fun p zp s => fetchDirectoryContents api owner repo branch fuel' p zp s) ih
          contents 0 contents.length zipPath st (by omega) x ?_
        rw [heqB]
        exact hx
    simp only [fetchDirectoryContents] at h
    rw [heqB] at h
    dsimp only [] at h
    rw [if_neg hne] at h
    exact hst3 e h

theorem mapCatch_eq_specErrorMapping (e : JsError) : mapCatch e = specErrorMapping e := by
  cases e <;> rfl

/-! ## Downloader claims -/

/-- C1 (amended): within one directory level the per-directory progress values
`30 + floor(i / siblingCount * 40)` are non-decreasing in the sibling index,
and every event emitted during tree traversal lies in `[30, 70)`, hence below
the terminal 70/80/90 events.  The original claim is false for a whole job:
entering a nested directory after a non-first sibling restarts the inner
formula at 30, so the job-lifetime sequence can decrease (see the
counterexample). -/
theorem c1_progress_amended :
    (∀ len i j : Nat, i ≤ j → dirProgress i len ≤ dirProgress j len) ∧
    (∀ (api : MockApi) (owner repo branch : String) (fuel : Nat) (path zipPath : String)
        (st : St) (e : Nat × String),
      e ∈ (fetchDirectoryContents api owner repo branch fuel path zipPath st).1.events →
      e ∈ st.events ∨ (30 ≤ e.1 ∧ e.1 < 70)) := by
  constructor
  · intro len i j hij
    exact Nat.add_le_add_left (Nat.div_le_div_right (Nat.mul_le_mul_right 40 hij)) 30
  · intro api owner repo branch fuel path zipPath st e h
    exact fetchDirectoryContents_events api owner repo branch fuel path zipPath st e h

/-- C1 counterexample: a root listing with a file followed by a nested
directory makes the job deliver the progress percentages 30, 50, 30, 70, 80,
90 — not a non-decreasing sequence. -/
theorem c1_progress_counterexample :
    ¬ List.Chain' (· ≤ ·)
      (((downloadRepository demoApiC1 ⟨"o", "r", "main", "", UrlType.directory⟩ 3).1.events).map
        Prod.fst) := by
  have h : ((downloadRepository demoApiC1 ⟨"o", "r", "main", "", UrlType.directory⟩
      3).1.events).map Prod.fst = [30, 50, 30, 70, 80, 90] := rfl
  rw [h]
  simp only [List.chain'_cons, List.chain'_singleton]
  omega

/-- Witness for C1 (amended): the formula at one level, and a concrete
traversal event. -/
theorem c1_progress_amended_witness :
    dirProgress 0 2 ≤ dirProgress 1 2 ∧
    (((30 : Nat), "Processing f.txt...") ∈ (⟨[], []⟩ : St).events ∨
      (30 ≤ ((30 : Nat), "Processing f.txt...").1 ∧
        ((30 : Nat), "Processing f.txt...").1 < 70)) :=
  ⟨c1_progress_amended.1 2 0 1 (by decide),
   c1_progress_amended.2 demoApiC1 "o" "r" "main" 3 "" "" ⟨[], []⟩
     ((30 : Nat), "Processing f.txt...") (by decide)⟩

/-- C2: `downloadRepository` ends the job with the HTTP-status mapping of the
underlying failure of its `try` body — 403 yields the rate-limit message, 404
the not-found message, 401 the authentication message, and any other failure
is rethrown unchanged (`specErrorMapping` is the spec's table; `mapCatch` is
the code's `catch` block). -/
theorem c2_error_mapping :
    (∀ e : JsError, mapCatch e = specErrorMapping e) ∧
    (∀ (api : MockApi) (p : ParsedGitHubUrl) (fuel : Nat),
      (downloadRepository api p fuel).1 = (tryBody api p fuel).1 ∧
      (downloadRepository api p fuel).2 =
        (match (tryBody api p fuel).2 with
         | none => Except.ok true
         | some e => Except.error (specErrorMapping e))) := by
  constructor
  · exact mapCatch_eq_specErrorMapping
  · intro api p fuel
    rw [downloadRepository]
    cases htb : tryBody api p fuel with
    | mk st res =>
      cases res with
      | none => exact ⟨rfl, rfl⟩
      | some e =>
        refine ⟨rfl, ?_⟩
        show Except.error (mapCatch e) = Except.error (specErrorMapping e)
        rw [mapCatch_eq_specErrorMapping]

/-- C5: a 404 from a directory listing is recovered by creating an
empty-directory marker at the corresponding ZIP path and returning without
error; a listing failure with any other status propagates out of
`fetchDirectoryContents`, and from the root listing of a directory job it
aborts the whole run with the mapped error. -/
theorem c5_listing_failures :
    (∀ (api : MockApi) (owner repo branch : String) (fuel : Nat) (path zipPath : String)
        (st : St),
      api.listDirRes (contentsUrl owner repo path branch) = Except.error (JsError.http 404) →
      fetchDirectoryContents api owner repo branch (fuel + 1) path zipPath st =
        ({ st with zip := zipFolder st.zip (if zipPath = "" then path else zipPath) }, none)) ∧
    (∀ (api : MockApi) (owner repo branch : String) (fuel : Nat) (path zipPath : String)
        (st : St) (e : JsError),
      api.listDirRes (contentsUrl owner repo path branch) = Except.error e →
      e ≠ JsError.http 404 →
      fetchDirectoryContents api owner repo branch (fuel + 1) path zipPath st = (st, some e)) ∧
    (∀ (api : MockApi) (p : ParsedGitHubUrl) (fuel : Nat) (e : JsError),
      p.type = UrlType.directory →
      api.listDirRes (contentsUrl p.owner p.repo p.path p.branch) = Except.error e →
      e ≠ JsError.http 404 →
      (downloadRepository api p (fuel + 1)).2 = Except.error (mapCatch e)) := by
  have hb : ∀ (api : MockApi) (owner repo branch : String) (fuel : Nat)
      (path zipPath : String) (st : St) (e : JsError),
      api.listDirRes (contentsUrl owner repo path branch) = Except.error e →
      e ≠ JsError.http 404 →
      fetchDirectoryContents api owner repo branch (fuel + 1) path zipPath st = (st, some e) := by
    intro api owner repo branch fuel path zipPath st e hls hne
    simp only [fetchDirectoryContents, hls]
    rw [if_neg hne]
  refine ⟨?_, hb, ?_⟩
  · intro api owner repo branch fuel path zipPath st hls
    simp only [fetchDirectoryContents, hls]
    rfl
  · intro api p fuel e hty hls hne
    have htb : tryBody api p (fuel + 1) = (⟨[], []⟩, some e) := by
      rw [tryBody, hty]
      rw [hb api p.owner p.repo p.branch fuel p.path "" ⟨[], []⟩ e hls hne]
    rw [downloadRepository, htb]

/-- Witness for C5 with a mocked 404 listing and a mocked 500 listing. -/
theorem c5_listing_failures_witness :
    fetchDirectoryContents demoApiC5 "o" "r" "main" 1 "d" "sub" ⟨[], []⟩ =
      (⟨[("sub", Payload.dir)], []⟩, none) ∧
    fetchDirectoryContents demoApiC5 "o" "r" "main" 1 "e" "sub" ⟨[], []⟩ =
      (⟨[], []⟩, some (JsError.http 500)) ∧
    (downloadRepository demoApiC5 ⟨"o", "r", "main", "e", UrlType.directory⟩ 1).2 =
      Except.error (Thrown.js (JsError.http 500)) :=
  ⟨c5_listing_failures.1 demoApiC5 "o" "r" "main" 0 "d" "sub" ⟨[], []⟩ rfl,
   c5_listing_failures.2.1 demoApiC5 "o" "r" "main" 0 "e" "sub" ⟨[], []⟩
     (JsError.http 500) rfl (by decide),
   c5_listing_failures.2.2 demoApiC5 ⟨"o", "r", "main", "e", UrlType.directory⟩ 0
     (JsError.http 500) rfl rfl (by decide)⟩

/-- C9: on a file-kind job whose single metadata fetch fails (for example an
unmocked URL, which responds 404), the failure is swallowed inside
`addFileToZip`: the job does not throw the mapped not-found error but reports
success, and the archive holds one placeholder text entry named from the
path's last segment. -/
theorem c9_file_job_swallow :
    ∀ (api : MockApi) (p : ParsedGitHubUrl) (fuel : Nat) (e : JsError),
      p.type = UrlType.file →
      api.getFileRes (contentsUrl p.owner p.repo p.path p.branch) = Except.error e →
      (downloadRepository api p fuel).2 = Except.ok true ∧
      (downloadRepository api p fuel).1.zip =
        [(if (jsSplitStr p.path).getLastD "" = "" then "unknown-file"
          else (jsSplitStr p.path).getLastD "", Payload.text failText)] ∧
      (downloadRepository api p fuel).1.events =
        [(70, "Creating ZIP file..."), (80, "Generating ZIP file..."),
         (90, "Starting download...")] := by
  intro api p fuel e hty hmeta
  have hadd : addFileToZip api p.owner p.repo p.branch p.path "" (⟨[], []⟩ : St) =
      ⟨[(if (jsSplitStr p.path).getLastD "" = "" then "unknown-file"
         else (jsSplitStr p.path).getLastD "", Payload.text failText)], []⟩ := by
    rw [addFileToZip]
    simp only [hmeta]
    simp [zipFile, lookupA]
  have htb : tryBody api p fuel =
      (⟨[(if (jsSplitStr p.path).getLastD "" = "" then "unknown-file"
          else (jsSplitStr p.path).getLastD "", Payload.text failText)],
        [(70, "Creating ZIP file..."), (80, "Generating ZIP file..."),
         (90, "Starting download...")]⟩, none) := by
    rw [tryBody, hty, hadd]
    rfl
  rw [downloadRepository, htb]
  exact ⟨rfl, rfl, rfl⟩

/-- Witness for C9: an unmocked file path produces a successful run with the
placeholder entry named from the last path segment. -/
theorem c9_file_job_swallow_witness :
    (downloadRepository demoApiC5 ⟨"o", "r", "main", "docs/readme.md", UrlType.file⟩ 0).2 =
      Except.ok true ∧
    (downloadRepository demoApiC5 ⟨"o", "r", "main", "docs/readme.md", UrlType.file⟩ 0).1.zip =
      [("readme.md", Payload.text failText)] ∧
    (downloadRepository demoApiC5 ⟨"o", "r", "main", "docs/readme.md",
        UrlType.file⟩ 0).1.events =
      [(70, "Creating ZIP file..."), (80, "Generating ZIP file..."),
       (90, "Starting download...")] := by
  have h := c9_file_job_swallow demoApiC5 ⟨"o", "r", "main", "docs/readme.md", UrlType.file⟩ 0
    (JsError.http 404) rfl rfl
  refine ⟨h.1, Eq.trans h.2.1 ?_, h.2.2⟩
  rfl

/-- The error outcome of the listing loop does not depend on the job state nor
on the file/blob/raw tables, only on the items and the recursive calls. -/
theorem processItems_err_congr (api₁ api₂ : MockApi) (owner repo branch : String)
    (recur₁ recur₂ : String → String → St → St × Option JsError)
    (hrec : ∀ p zp s₁ s₂, (recur₁ p zp s₁).2 = (recur₂ p zp s₂).2) :
    ∀ (items : List GitHubContent) (i len : Nat) (zipPath : String) (st₁ st₂ : St),
      (processItems api₁ owner repo branch recur₁ items i len zipPath st₁).2 =
      (processItems api₂ owner repo branch recur₂ items i len zipPath st₂).2 := by
  intro items i len zipPath st₁ st₂
  induction items, i, len, zipPath, st₁ using processItems.induct api₁ owner repo branch recur₁
    generalizing st₂ with
  | case1 i len zipPath st₁ => rfl
  | case2 item rest i len zipPath st₁ itemZipPath st1 hty st2 st3 heq ih =>
    simp only [processItems, hty, heq]
    cases hr₂ : recur₂ item.path (if zipPath = "" then item.name else zipPath ++ "/" ++ item.name)
        { zip := zipFolder (emit st₂ (dirProgress i len)
              ("Processing " ++ item.path ++ "...")).zip
            (if zipPath = "" then item.name else zipPath ++ "/" ++ item.name),
          events := (emit st₂ (dirProgress i len)
            ("Processing " ++ item.path ++ "...")).events } with
    | mk s2 r2 =>
      have h1 := hrec item.path itemZipPath st2
        { zip := zipFolder (emit st₂ (dirProgress i len)
              ("Processing " ++ item.path ++ "...")).zip
            (if zipPath = "" then item.name else zipPath ++ "/" ++ item.name),
          events := (emit st₂ (dirProgress i len)
            ("Processing " ++ item.path ++ "...")).events }
      rw [heq, hr₂] at h1
      obtain rfl : r2 = none := h1.symm
      exact ih s2
  | case3 item rest i len zipPath st₁ itemZipPath st1 hty st2 st3 err heq =>
    simp only [processItems, hty, heq]
    cases hr₂ : recur₂ item.path (if zipPath = "" then item.name else zipPath ++ "/" ++ item.name)
        { zip := zipFolder (emit st₂ (dirProgress i len)
              ("Processing " ++ item.path ++ "...")).zip
            (if zipPath = "" then item.name else zipPath ++ "/" ++ item.name),
          events := (emit st₂ (dirProgress i len)
            ("Processing " ++ item.path ++ "...")).events } with
    | mk s2 r2 =>
      have h1 := hrec item.path itemZipPath st2
        { zip := zipFolder (emit st₂ (dirProgress i len)
              ("Processing " ++ item.path ++ "...")).zip
            (if zipPath = "" then item.name else zipPath ++ "/" ++ item.name),
          events := (emit st₂ (dirProgress i len)
            ("Processing " ++ item.path ++ "...")).events }
      rw [heq, hr₂] at h1
      obtain rfl : r2 = some err := h1.symm
      rfl
  | case4 item rest i len zipPath st₁ itemZipPath st1 hty ih =>
    simp only [processItems, hty]
    exact ih _
  | case5 item rest i len zipPath st₁ st1 hty1 hty2 ih =>
    have hstep : ∀ (api : MockApi) (recur : String → String → St → St × Option JsError)
        (st : St),
        processItems api owner repo branch recur (item :: rest) i len zipPath st =
        processItems api owner repo branch recur rest (i + 1) len zipPath
          (emit st (dirProgress i len) ("Processing " ++ item.path ++ "...")) := by
      intro api recur st
      rw [processItems]
      cases htyv : item.type
      · exact absurd htyv hty2
      · exact absurd htyv hty1
      · rfl
      · rfl
    rw [hstep, hstep]
    exact ih _

/-- The error outcome of `fetchDirectoryContents` depends only on the mocked
directory listings and the fuel: the file, blob and raw tables (and the job
state) never decide whether the job aborts. -/
theorem fetchDirectoryContents_err_congr (api₁ api₂ : MockApi)
    (hdirs : api₁.dirs = api₂.dirs) (owner repo branch : String) :
    ∀ (fuel : Nat) (path zipPath : String) (st₁ st₂ : St),
      (fetchDirectoryContents api₁ owner repo branch fuel path zipPath st₁).2 =
      (fetchDirectoryContents api₂ owner repo branch fuel path zipPath st₂).2 := by
  have hls : ∀ u, api₁.listDirRes u = api₂.listDirRes u := by
    intro u
    rw [MockApi.listDirRes, MockApi.listDirRes, hdirs]
  intro fuel path zipPath st₁ st₂
  induction fuel, path, zipPath, st₁ using fetchDirectoryContents.induct api₁ owner repo branch
    generalizing st₂ with
  | case1 path zipPath st₁ => rfl
  | case2 path zipPath st₁ fuel' step st3 heq ih =>
    have heqB : (match api₁.listDirRes (contentsUrl owner repo path branch) with
        | Except.error err => (st₁, some err)
        | Except.ok contents =>
          processItems api₁ owner repo branch
            (fun p zp s => fetchDirectoryContents api₁ owner repo branch fuel' p zp s)
            contents 0 contents.length zipPath st₁) = (st3, none) := heq
    simp only [fetchDirectoryContents]
    rw [heqB]
    cases hls₁ : api₁.listDirRes (contentsUrl owner repo path branch) with
    | error err =>
      rw [hls₁] at heqB
      simp only [Prod.mk.injEq] at heqB
      exact absurd heqB.2 (by simp)
    | ok contents =>
      rw [hls₁] at heqB
      dsimp only [] at heqB
      rw [← hls, hls₁]
      dsimp only []
      cases hstep₂ : processItems api₂ owner repo branch
          (fun p zp s => fetchDirectoryContents api₂ owner repo branch fuel' p zp s)
          contents 0 contents.length zipPath st₂ with
      | mk s2 r2 =>
        have h2 : none = r2 := by
          have h3 := processItems_err_congr api₁ api₂ owner repo branch _ _
            (fun p zp s₁ s₂ => ih p zp s₁ s₂) contents 0 contents.length zipPath st₁ st₂
          rw [heqB, hstep₂] at h3
          exact h3
        obtain rfl : r2 = none := h2.symm
        rfl
  | case3 path zipPath st₁ fuel' step st3 heq ih =>
    have heqB : (match api₁.listDirRes (contentsUrl owner repo path branch) with
        | Except.error err => (st₁, some err)
        | Except.ok contents =>
          processItems api₁ owner repo branch
            (fun p zp s => fetchDirectoryContents api₁ owner repo branch fuel' p zp s)
            contents 0 contents.length zipPath st₁) = (st3, some (JsError.http 404)) := heq
    simp only [fetchDirectoryContents]
    rw [heqB]
    cases hls₁ : api₁.listDirRes (contentsUrl owner repo path branch) with
    | error err =>
      rw [hls₁] at heqB
      simp only [Prod.mk.injEq] at heqB
      rw [← hls, hls₁]
      rw [show err = JsError.http 404 by simpa using heqB.2]
      rfl
    | ok contents =>
      rw [hls₁] at heqB
      dsimp only [] at heqB
      rw [← hls, hls₁]
      dsimp only []
      cases hstep₂ : processItems api₂ owner repo branch
          (fun p zp s => fetchDirectoryContents api₂ owner repo branch fuel' p zp s)
          contents 0 contents.length zipPath st₂ with
      | mk s2 r2 =>
        have h2 : some (JsError.http 404) = r2 := by
          have h3 := processItems_err_congr api₁ api₂ owner repo branch _ _
            (fun p zp s₁ s₂ => ih p zp s₁ s₂) contents 0 contents.length zipPath st₁ st₂
          rw [heqB, hstep₂] at h3
          exact h3
        obtain rfl : r2 = some (JsError.http 404) := h2.symm
        rfl
  | case4 path zipPath st₁ fuel' step st3 e2 heq hne ih =>
    have heqB : (match api₁.listDirRes (contentsUrl owner repo path branch) with
        | Except.error err => (st₁, some err)
        | Except.ok contents =>
          processItems api₁ owner repo branch
            (fun p zp s => fetchDirectoryContents api₁ owner repo branch fuel' p zp s)
            contents 0 contents.length zipPath st₁) = (st3, some e2) := heq
    simp only [fetchDirectoryContents]
    rw [heqB]
    dsimp only []
    rw [if_neg hne]
    cases hls₁ : api₁.listDirRes (contentsUrl owner repo path branch) with
    | error err =>
      rw [hls₁] at heqB
      simp only [Prod.mk.injEq] at heqB
      rw [← hls, hls₁]
      rw [show err = e2 by simpa using heqB.2]
      dsimp only []
      rw [if_neg hne]
    | ok contents =>
      rw [hls₁] at heqB
      dsimp only [] at heqB
      rw [← hls, hls₁]
      dsimp only []
      cases hstep₂ : processItems api₂ owner repo branch
          (fun p zp s => fetchDirectoryContents api₂ owner repo branch fuel' p zp s)
          contents 0 contents.length zipPath st₂ with
      | mk s2 r2 =>
        have h2 : some e2 = r2 := by
          have h3 := processItems_err_congr api₁ api₂ owner repo branch _ _
            (fun p zp s₁ s₂ => ih p zp s₁ s₂) contents 0 contents.length zipPath st₁ st₂
          rw [heqB, hstep₂] at h3
          exact h3
        obtain rfl : r2 = some e2 := h2.symm
        dsimp only []
        rw [if_neg hne]

/-- C4: a file whose metadata has `download_url = null` is fetched from the
blob endpoint keyed by its `sha`; when the encoding tag is `"base64"` the
content is stored with base64 decoding, and any other encoding tag replaces
only that file with the placeholder entry.  Moreover the job's error outcome
never depends on the file, blob or raw tables (nor on the accumulated state),
so the job still completes successfully for the remaining files. -/
theorem c4_blob_path :
    (∀ (api : MockApi) (owner repo branch path zipPath : String) (st : St)
        (info : GitHubContent) (blob : BlobData),
      api.getFileRes (contentsUrl owner repo path branch) = Except.ok info →
      info.download_url = none →
      api.getBlobRes (blobUrl owner repo info.sha) = Except.ok blob →
      ((blob.encoding = "base64" →
        addFileToZip api owner repo branch path zipPath st =
          { st with zip := (zipFile st.zip (if zipPath = "" then info.name else zipPath)
              (Payload.base64 blob.content)) }) ∧
       (blob.encoding ≠ "base64" →
        addFileToZip api owner repo branch path zipPath st =
          { st with zip := (zipFile st.zip
              (if zipPath = "" then
                (if (jsSplitStr path).getLastD "" = "" then "unknown-file"
                 else (jsSplitStr path).getLastD "")
               else zipPath) (Payload.text failText)) }))) ∧
    (∀ (api₁ api₂ : MockApi), api₁.dirs = api₂.dirs →
      ∀ (owner repo branch : String) (fuel : Nat) (path zipPath : String) (st₁ st₂ : St),
        (fetchDirectoryContents api₁ owner repo branch fuel path zipPath st₁).2 =
        (fetchDirectoryContents api₂ owner repo branch fuel path zipPath st₂).2) := by
  constructor
  · intro api owner repo branch path zipPath st info blob hmeta hdl hblob
    constructor
    · intro henc
      rw [addFileToZip]
      simp only [hmeta, hdl, hblob, if_pos henc]
    · intro henc
      rw [addFileToZip]
      simp only [hmeta, hdl, hblob, if_neg henc]
  · intro api₁ api₂ hdirs owner repo branch fuel path zipPath st₁ st₂
    exact fetchDirectoryContents_err_congr api₁ api₂ hdirs owner repo branch fuel path
      zipPath st₁ st₂

/-- Witness for C4: a mocked base64 blob, a mocked unsupported-encoding blob,
and two mocks with equal listings but different raw tables. -/
theorem c4_blob_path_witness :
    addFileToZip demoApiC4 "o" "r" "main" "big.bin" "z/big.bin" ⟨[], []⟩ =
      ⟨[("z/big.bin", Payload.base64 "QUJD")], []⟩ ∧
    addFileToZip demoApiC4 "o" "r" "main" "odd.bin" "z/odd.bin" ⟨[], []⟩ =
      ⟨[("z/odd.bin", Payload.text failText)], []⟩ ∧
    (fetchDirectoryContents demoApiC3 "o" "r" "main" 2 "" "" ⟨[], []⟩).2 =
      (fetchDirectoryContents demoApiC3ok "o" "r" "main" 2 "" "" ⟨[], []⟩).2 := by
  have h := c4_blob_path.1 demoApiC4 "o" "r" "main" "big.bin" "z/big.bin" ⟨[], []⟩
    ⟨"big.bin", "big.bin", "sha1", 9, none, ContentType.file⟩ ⟨"QUJD", "base64"⟩ rfl rfl rfl
  have h2 := c4_blob_path.1 demoApiC4 "o" "r" "main" "odd.bin" "z/odd.bin" ⟨[], []⟩
    ⟨"odd.bin", "odd.bin", "sha2", 9, none, ContentType.file⟩ ⟨"QUJD", "utf-8"⟩ rfl rfl rfl
  exact ⟨(h.1 rfl).trans rfl, (h2.2 (by decide)).trans rfl,
    c4_blob_path.2 demoApiC3 demoApiC3ok rfl "o" "r" "main" 2 "" "" ⟨[], []⟩ ⟨[], []⟩⟩

/-! ## Simulation lemmas for a single failing raw fetch -/

theorem lookupA_mem {β : Type} (key : String) :
    ∀ (l : List (String × β)) (v : β), lookupA key l = some v → (key, v) ∈ l := by
  intro l
  induction l with
  | nil =>
    intro v h
    simp [lookupA] at h
  | cons kv rest ih =>
    intro v h
    obtain ⟨k, w⟩ := kv
    by_cases hk : key = k
    · subst hk
      rw [lookupA, if_pos rfl] at h
      obtain rfl : w = v := by simpa using h
      exact List.mem_cons_self _ _
    · rw [lookupA, if_neg hk] at h
      exact List.mem_cons_of_mem _ (ih v h)

theorem wfNamesB_names {api : MockApi} (h : api.wfNamesB = true) :
    ∀ (url : String) (l : List GitHubContent),
      api.listDirRes url = Except.ok l → ∀ item ∈ l, item.name ≠ "" := by
  intro url l hls item hmem
  rw [MockApi.listDirRes] at hls
  cases hlk : lookupA url api.dirs with
  | none =>
    rw [hlk] at hls
    simp at hls
  | some r =>
    rw [hlk] at hls
    simp only [Option.getD_some] at hls
    subst hls
    have hin := lookupA_mem url api.dirs (Except.ok l) hlk
    rw [MockApi.wfNamesB, List.all_eq_true] at h
    have h2 := h _ hin
    dsimp only [] at h2
    rw [List.all_eq_true] at h2
    have h3 := h2 item hmem
    simpa using h3

theorem forall₂_keys_eq {z₁ z₂ : List (String × Payload)}
    (h : List.Forall₂ entryRel z₁ z₂) : z₁.map Prod.fst = z₂.map Prod.fst := by
  induction h with
  | nil => rfl
  | cons hab _ ih => simp only [List.map_cons, ih, hab.1]

theorem lookupA_isSome_congr {β : Type} (key : String) :
    ∀ (z₁ z₂ : List (String × β)), z₁.map Prod.fst = z₂.map Prod.fst →
      (lookupA key z₁).isSome = (lookupA key z₂).isSome := by
  intro z₁
  induction z₁ with
  | nil =>
    intro z₂ h
    obtain rfl : z₂ = [] := by
      cases z₂ with
      | nil => rfl
      | cons b bs => simp at h
    rfl
  | cons a as ih =>
    intro z₂ h
    cases z₂ with
    | nil => simp at h
    | cons b bs =>
      obtain ⟨a1, a2⟩ := a
      obtain ⟨b1, b2⟩ := b
      simp only [List.map_cons] at h
      obtain ⟨rfl, hrest⟩ := List.cons.inj h
      rw [lookupA, lookupA]
      by_cases hk : key = a1
      · rw [if_pos hk, if_pos hk]
        rfl
      · rw [if_neg hk, if_neg hk]
        exact ih bs hrest

theorem zipReplace_forall₂ {z₁ z₂ : List (String × Payload)}
    (h : List.Forall₂ entryRel z₁ z₂) (name : String) {p₁ p₂ : Payload}
    (hp : p₁ = p₂ ∨ p₁ = Payload.text failText) :
    List.Forall₂ entryRel
      (z₁.map fun e => if e.1 = name then (name, p₁) else e)
      (z₂.map fun e => if e.1 = name then (name, p₂) else e) := by
  induction h with
  | nil => exact List.Forall₂.nil
  | cons hab hrest ih =>
    simp only [List.map_cons]
    refine List.Forall₂.cons ?_ ih
    rename_i a b l₁ l₂
    by_cases hk : a.1 = name
    · rw [if_pos hk, if_pos (hab.1 ▸ hk)]
      exact ⟨rfl, hp⟩
    · rw [if_neg hk, if_neg (hab.1 ▸ hk)]
      exact hab

theorem forall₂_append_one {z₁ z₂ : List (String × Payload)}
    (h : List.Forall₂ entryRel z₁ z₂) (x y : String × Payload) (hxy : entryRel x y) :
    List.Forall₂ entryRel (z₁ ++ [x]) (z₂ ++ [y]) := by
  induction h with
  | nil => exact List.Forall₂.cons hxy List.Forall₂.nil
  | cons hab _ ih => exact List.Forall₂.cons hab ih

theorem zipFile_forall₂ {z₁ z₂ : List (String × Payload)}
    (h : List.Forall₂ entryRel z₁ z₂) (name : String) {p₁ p₂ : Payload}
    (hp : p₁ = p₂ ∨ p₁ = Payload.text failText) :
    List.Forall₂ entryRel (zipFile z₁ name p₁) (zipFile z₂ name p₂) := by
  rw [zipFile, zipFile]
  have hsome := lookupA_isSome_congr name z₁ z₂ (forall₂_keys_eq h)
  cases h1 : lookupA name z₁ with
  | none =>
    cases h2 : lookupA name z₂ with
    | none => exact forall₂_append_one h _ _ ⟨rfl, hp⟩
    | some v =>
      rw [h1, h2] at hsome
      simp at hsome
  | some v =>
    cases h2 : lookupA name z₂ with
    | none =>
      rw [h1, h2] at hsome
      simp at hsome
    | some w => exact zipReplace_forall₂ h name hp

theorem zipFolder_forall₂ {z₁ z₂ : List (String × Payload)}
    (h : List.Forall₂ entryRel z₁ z₂) (name : String) :
    List.Forall₂ entryRel (zipFolder z₁ name) (zipFolder z₂ name) := by
  rw [zipFolder, zipFolder]
  have hsome := lookupA_isSome_congr name z₁ z₂ (forall₂_keys_eq h)
  cases h1 : lookupA name z₁ with
  | none =>
    cases h2 : lookupA name z₂ with
    | none => exact forall₂_append_one h _ _ ⟨rfl, Or.inl rfl⟩
    | some v =>
      rw [h1, h2] at hsome
      simp at hsome
  | some v =>
    cases h2 : lookupA name z₂ with
    | none =>
      rw [h1, h2] at hsome
      simp at hsome
    | some w => exact h

theorem append_slash_ne_empty (a b : String) : a ++ "/" ++ b ≠ "" := by
  intro h
  have h2 := congrArg String.data h
  rw [data_append, data_append] at h2
  rcases List.append_eq_nil.mp h2 with ⟨h3, -⟩
  rcases List.append_eq_nil.mp h3 with ⟨-, h4⟩
  exact absurd h4 (by decide)

/-- One failing raw fetch at `u0` keeps `addFileToZip` related to the
reference run: same entry paths, differing payloads only as placeholders. -/
theorem addFileToZip_rel (api₁ api₂ : MockApi) (u0 : String) (e0 : JsError)
    (hfiles : api₁.files = api₂.files) (hblobs : api₁.blobs = api₂.blobs)
    (hraws : ∀ u, u ≠ u0 → api₁.getRawRes u = api₂.getRawRes u)
    (hbad : api₁.getRawRes u0 = Except.error e0)
    (owner repo branch path zipPath : String) (hzp : zipPath ≠ "")
    {st₁ st₂ : St} (hst : StRel st₁ st₂) :
    StRel (addFileToZip api₁ owner repo branch path zipPath st₁)
      (addFileToZip api₂ owner repo branch path zipPath st₂) := by
  obtain ⟨hev, hzip⟩ := hst
  have hfs : api₁.getFileRes (contentsUrl owner repo path branch) =
      api₂.getFileRes (contentsUrl owner repo path branch) := by
    rw [MockApi.getFileRes, MockApi.getFileRes, hfiles]
  have hbs : ∀ u, api₁.getBlobRes u = api₂.getBlobRes u := by
    intro u
    rw [MockApi.getBlobRes, MockApi.getBlobRes, hblobs]
  rw [addFileToZip, addFileToZip, ← hfs]
  cases hmeta : api₁.getFileRes (contentsUrl owner repo path branch) with
  | error e => exact ⟨hev, zipFile_forall₂ hzip _ (Or.inl rfl)⟩
  | ok info =>
    dsimp only []
    cases hdl : info.download_url with
    | none =>
      dsimp only []
      rw [← hbs]
      cases hblob : api₁.getBlobRes (blobUrl owner repo info.sha) with
      | error e => exact ⟨hev, zipFile_forall₂ hzip _ (Or.inl rfl)⟩
      | ok blob =>
        dsimp only []
        by_cases henc : blob.encoding = "base64"
        · simp only [if_pos henc]
          exact ⟨hev, zipFile_forall₂ hzip _ (Or.inl rfl)⟩
        · simp only [if_neg henc]
          exact ⟨hev, zipFile_forall₂ hzip _ (Or.inl rfl)⟩
    | some durl =>
      dsimp only []
      by_cases hu : durl = u0
      · subst hu
        rw [hbad]
        cases hraw₂ : api₂.getRawRes durl with
        | error e2 => exact ⟨hev, zipFile_forall₂ hzip _ (Or.inl rfl)⟩
        | ok bytes =>
          dsimp only []
          simp only [if_neg hzp]
          exact ⟨hev, zipFile_forall₂ hzip _ (Or.inr rfl)⟩
      · rw [← hraws durl hu]
        cases hraw : api₁.getRawRes durl with
        | error e2 => exact ⟨hev, zipFile_forall₂ hzip _ (Or.inl rfl)⟩
        | ok bytes => exact ⟨hev, zipFile_forall₂ hzip _ (Or.inl rfl)⟩

/-- One failing raw fetch keeps the listing loop related to the reference run:
identical events and error outcome, pointwise related ZIP entries. -/
theorem processItems_rel (api₁ api₂ : MockApi) (u0 : String) (e0 : JsError)
    (hfiles : api₁.files = api₂.files) (hblobs : api₁.blobs = api₂.blobs)
    (hraws : ∀ u, u ≠ u0 → api₁.getRawRes u = api₂.getRawRes u)
    (hbad : api₁.getRawRes u0 = Except.error e0)
    (owner repo branch : String)
    (recur₁ recur₂ : String → String → St → St × Option JsError)
    (hrec : ∀ p zp s₁ s₂, StRel s₁ s₂ →
      StRel (recur₁ p zp s₁).1 (recur₂ p zp s₂).1 ∧
        (recur₁ p zp s₁).2 = (recur₂ p zp s₂).2) :
    ∀ (items : List GitHubContent) (i len : Nat) (zipPath : String) (st₁ st₂ : St),
      (∀ item ∈ items, item.name ≠ "") → StRel st₁ st₂ →
      StRel (processItems api₁ owner repo branch recur₁ items i len zipPath st₁).1
          (processItems api₂ owner repo branch recur₂ items i len zipPath st₂).1 ∧
        (processItems api₁ owner repo branch recur₁ items i len zipPath st₁).2 =
        (processItems api₂ owner repo branch recur₂ items i len zipPath st₂).2 := by
  intro items i len zipPath st₁ st₂
  induction items, i, len, zipPath, st₁ using processItems.induct api₁ owner repo branch recur₁
    generalizing st₂ with
  | case1 i len zipPath st₁ =>
    intro _ hst
    exact ⟨hst, rfl⟩
  | case2 item rest i len zipPath st₁ itemZipPath st1 hty st2 st3 heq ih =>
    intro hnames hst
    have hzp2 : StRel st2
        { zip := zipFolder (emit st₂ (dirProgress i len)
              ("Processing " ++ item.path ++ "...")).zip
            (if zipPath = "" then item.name else zipPath ++ "/" ++ item.name),
          events := (emit st₂ (dirProgress i len)
            ("Processing " ++ item.path ++ "...")).events } := by
      refine ⟨?_, ?_⟩
      · show st₁.events ++ _ = st₂.events ++ _
        rw [hst.1]
      · exact zipFolder_forall₂ hst.2 _
    simp only [processItems, hty, heq]
    cases hr₂ : recur₂ item.path (if zipPath = "" then item.name else zipPath ++ "/" ++ item.name)
        { zip := zipFolder (emit st₂ (dirProgress i len)
              ("Processing " ++ item.path ++ "...")).zip
            (if zipPath = "" then item.name else zipPath ++ "/" ++ item.name),
          events := (emit st₂ (dirProgress i len)
            ("Processing " ++ item.path ++ "...")).events } with
    | mk s2 r2 =>
      have h1 := hrec item.path itemZipPath st2 _ hzp2
      rw [heq, hr₂] at h1
      obtain ⟨hrel3, hres⟩ := h1
      obtain rfl : r2 = none := hres.symm
      exact ih s2 (fun it hm => hnames it (List.mem_cons_of_mem item hm)) hrel3
  | case3 item rest i len zipPath st₁ itemZipPath st1 hty st2 st3 err heq =>
    intro hnames hst
    have hzp2 : StRel st2
        { zip := zipFolder (emit st₂ (dirProgress i len)
              ("Processing " ++ item.path ++ "...")).zip
            (if zipPath = "" then item.name else zipPath ++ "/" ++ item.name),
          events := (emit st₂ (dirProgress i len)
            ("Processing " ++ item.path ++ "...")).events } := by
      refine ⟨?_, ?_⟩
      · show st₁.events ++ _ = st₂.events ++ _
        rw [hst.1]
      · exact zipFolder_forall₂ hst.2 _
    simp only [processItems, hty, heq]
    cases hr₂ : recur₂ item.path (if zipPath = "" then item.name else zipPath ++ "/" ++ item.name)
        { zip := zipFolder (emit st₂ (dirProgress i len)
              ("Processing " ++ item.path ++ "...")).zip
            (if zipPath = "" then item.name else zipPath ++ "/" ++ item.name),
          events := (emit st₂ (dirProgress i len)
            ("Processing " ++ item.path ++ "...")).events } with
    | mk s2 r2 =>
      have h1 := hrec item.path itemZipPath st2 _ hzp2
      rw [heq, hr₂] at h1
      obtain ⟨hrel3, hres⟩ := h1
      obtain rfl : r2 = some err := hres.symm
      exact ⟨hrel3, rfl⟩
  | case4 item rest i len zipPath st₁ itemZipPath st1 hty ih =>
    intro hnames hst
    have hzpne : itemZipPath ≠ "" := by
      show (if zipPath = "" then item.name else zipPath ++ "/" ++ item.name) ≠ ""
      by_cases hz : zipPath = ""
      · rw [if_pos hz]
        exact hnames item (List.mem_cons_self _ _)
      · rw [if_neg hz]
        exact append_slash_ne_empty zipPath item.name
    have hst1 : StRel st1 (emit st₂ (dirProgress i len)
        ("Processing " ++ item.path ++ "...")) := by
      refine ⟨?_, hst.2⟩
      show st₁.events ++ _ = st₂.events ++ _
      rw [hst.1]
    have hadd := addFileToZip_rel api₁ api₂ u0 e0 hfiles hblobs hraws hbad
      owner repo branch item.path itemZipPath hzpne hst1
    simp only [processItems, hty]
    exact ih _ (fun it hm => hnames it (List.mem_cons_of_mem item hm)) hadd
  | case5 item rest i len zipPath st₁ st1 hty1 hty2 ih =>
    intro hnames hst
    have hstep : ∀ (api : MockApi) (recur : String → String → St → St × Option JsError)
        (st : St),
        processItems api owner repo branch recur (item :: rest) i len zipPath st =
        processItems api owner repo branch recur rest (i + 1) len zipPath
          (emit st (dirProgress i len) ("Processing " ++ item.path ++ "...")) := by
      intro api recur st
      rw [processItems]
      cases htyv : item.type
      · exact absurd htyv hty2
      · exact absurd htyv hty1
      · rfl
      · rfl
    rw [hstep, hstep]
    refine ih _ (fun it hm => hnames it (List.mem_cons_of_mem item hm)) ?_
    refine ⟨?_, hst.2⟩
    show st₁.events ++ _ = st₂.events ++ _
    rw [hst.1]

/-- One failing raw fetch keeps the whole directory traversal related to the
reference run: identical events and error outcome, pointwise related entries. -/
theorem fetchDirectoryContents_rel (api₁ api₂ : MockApi) (u0 : String) (e0 : JsError)
    (hfiles : api₁.files = api₂.files) (hblobs : api₁.blobs = api₂.blobs)
    (hraws : ∀ u, u ≠ u0 → api₁.getRawRes u = api₂.getRawRes u)
    (hbad : api₁.getRawRes u0 = Except.error e0)
    (hdirs : api₁.dirs = api₂.dirs) (hwf : api₁.wfNamesB = true)
    (owner repo branch : String) :
    ∀ (fuel : Nat) (path zipPath : String) (st₁ st₂ : St), StRel st₁ st₂ →
      StRel (fetchDirectoryContents api₁ owner repo branch fuel path zipPath st₁).1
          (fetchDirectoryContents api₂ owner repo branch fuel path zipPath st₂).1 ∧
        (fetchDirectoryContents api₁ owner repo branch fuel path zipPath st₁).2 =
        (fetchDirectoryContents api₂ owner repo branch fuel path zipPath st₂).2 := by
  have hls : ∀ u, api₁.listDirRes u = api₂.listDirRes u := by
    intro u
    rw [MockApi.listDirRes, MockApi.listDirRes, hdirs]
  intro fuel path zipPath st₁ st₂
  induction fuel, path, zipPath, st₁ using fetchDirectoryContents.induct api₁ owner repo branch
    generalizing st₂ with
  | case1 path zipPath st₁ =>
    intro hst
    exact ⟨hst, rfl⟩
  | case2 path zipPath st₁ fuel' step st3 heq ih =>
    intro hst
    have heqB : (match api₁.listDirRes (contentsUrl owner repo path branch) with
        | Except.error err => (st₁, some err)
        | Except.ok contents =>
          processItems api₁ owner repo branch
            (fun p zp s => fetchDirectoryContents api₁ owner repo branch fuel' p zp s)
            contents 0 contents.length zipPath st₁) = (st3, none) := heq
    simp only [fetchDirectoryContents]
    rw [heqB]
    cases hls₁ : api₁.listDirRes (contentsUrl owner repo path branch) with
    | error err =>
      rw [hls₁] at heqB
      simp only [Prod.mk.injEq] at heqB
      exact absurd heqB.2 (by simp)
    | ok contents =>
      rw [hls₁] at heqB
      dsimp only [] at heqB
      rw [← hls, hls₁]
      dsimp only []
      cases hstep₂ : processItems api₂ owner repo branch
          (fun p zp s => fetchDirectoryContents api₂ owner repo branch fuel' p zp s)
          contents 0 contents.length zipPath st₂ with
      | mk s2 r2 =>
        have h3 := processItems_rel api₁ api₂ u0 e0 hfiles hblobs hraws hbad owner repo branch
          (fun p zp s => fetchDirectoryContents api₁ owner repo branch fuel' p zp s)
          (fun p zp s => fetchDirectoryContents api₂ owner repo branch fuel' p zp s)
          (fun p zp s₁ s₂ hr => ih p zp s₁ s₂ hr)
          contents 0 contents.length zipPath st₁ st₂
          (wfNamesB_names hwf _ contents hls₁) hst
        rw [heqB, hstep₂] at h3
        obtain ⟨hrel, hres⟩ := h3
        obtain rfl : r2 = none := hres.symm
        exact ⟨hrel, rfl⟩
  | case3 path zipPath st₁ fuel' step st3 heq ih =>
    intro hst
    have heqB : (match api₁.listDirRes (contentsUrl owner repo path branch) with
        | Except.error err => (st₁, some err)
        | Except.ok contents =>
          processItems api₁ owner repo branch
            (fun p zp s => fetchDirectoryContents api₁ owner repo branch fuel' p zp s)
            contents 0 contents.length zipPath st₁) = (st3, some (JsError.http 404)) := heq
    simp only [fetchDirectoryContents]
    rw [heqB]
    cases hls₁ : api₁.listDirRes (contentsUrl owner repo path branch) with
    | error err =>
      rw [hls₁] at heqB
      simp only [Prod.mk.injEq] at heqB
      rw [← hls, hls₁]
      rw [show err = JsError.http 404 by simpa using heqB.2]
      obtain rfl : st₁ = st3 := heqB.1
      dsimp only []
      rw [if_pos rfl, if_pos rfl]
      exact ⟨⟨hst.1, zipFolder_forall₂ hst.2 _⟩, rfl⟩
    | ok contents =>
      rw [hls₁] at heqB
      dsimp only [] at heqB
      rw [← hls, hls₁]
      dsimp only []
      cases hstep₂ : processItems api₂ owner repo branch
          (fun p zp s => fetchDirectoryContents api₂ owner repo branch fuel' p zp s)
          contents 0 contents.length zipPath st₂ with
      | mk s2 r2 =>
        have h3 := processItems_rel api₁ api₂ u0 e0 hfiles hblobs hraws hbad owner repo branch
          (fun p zp s => fetchDirectoryContents api₁ owner repo branch fuel' p zp s)
          (fun p zp s => fetchDirectoryContents api₂ owner repo branch fuel' p zp s)
          (fun p zp s₁ s₂ hr => ih p zp s₁ s₂ hr)
          contents 0 contents.length zipPath st₁ st₂
          (wfNamesB_names hwf _ contents hls₁) hst
        rw [heqB, hstep₂] at h3
        obtain ⟨hrel, hres⟩ := h3
        obtain rfl : r2 = some (JsError.http 404) := hres.symm
        dsimp only []
        rw [if_pos rfl, if_pos rfl]
        exact ⟨⟨hrel.1, zipFolder_forall₂ hrel.2 _⟩, rfl⟩
  | case4 path zipPath st₁ fuel' step st3 e2 heq hne ih =>
    intro hst
    have heqB : (match api₁.listDirRes (contentsUrl owner repo path branch) with
        | Except.error err => (st₁, some err)
        | Except.ok contents =>
          processItems api₁ owner repo branch
            (fun p zp s => fetchDirectoryContents api₁ owner repo branch fuel' p zp s)
            contents 0 contents.length zipPath st₁) = (st3, some e2) := heq
    simp only [fetchDirectoryContents]
    rw [heqB]
    cases hls₁ : api₁.listDirRes (contentsUrl owner repo path branch) with
    | error err =>
      rw [hls₁] at heqB
      simp only [Prod.mk.injEq] at heqB
      rw [← hls, hls₁]
      rw [show err = e2 by simpa using heqB.2]
      obtain rfl : st₁ = st3 := heqB.1
      dsimp only []
      rw [if_neg hne, if_neg hne]
      exact ⟨hst, rfl⟩
    | ok contents =>
      rw [hls₁] at heqB
      dsimp only [] at heqB
      rw [← hls, hls₁]
      dsimp only []
      cases hstep₂ : processItems api₂ owner repo branch
          (fun p zp s => fetchDirectoryContents api₂ owner repo branch fuel' p zp s)
          contents 0 contents.length zipPath st₂ with
      | mk s2 r2 =>
        have h3 := processItems_rel api₁ api₂ u0 e0 hfiles hblobs hraws hbad owner repo branch
          (fun p zp s => fetchDirectoryContents api₁ owner repo branch fuel' p zp s)
          (fun p zp s => fetchDirectoryContents api₂ owner repo branch fuel' p zp s)
          (fun p zp s₁ s₂ hr => ih p zp s₁ s₂ hr)
          contents 0 contents.length zipPath st₁ st₂
          (wfNamesB_names hwf _ contents hls₁) hst
        rw [heqB, hstep₂] at h3
        obtain ⟨hrel, hres⟩ := h3
        obtain rfl : r2 = some e2 := hres.symm
        dsimp only []
        rw [if_neg hne, if_neg hne]
        exact ⟨hrel, rfl⟩

/-- C3: on a directory job over a mock that differs from a fully-successful
reference mock only at one raw-download URL, where it fails, the job still has
the reference run's outcome: if the reference run succeeds the failing run
reports success too, the thrown error (if any) is identical, the archive has
the same entry count, each entry sits at the same ZIP path holding either the
reference payload or the failure placeholder text, and the progress events are
identical. -/
theorem c3_single_file_failure (api₁ api₂ : MockApi) (u0 : String) (e0 : JsError)
    (hdirs : api₁.dirs = api₂.dirs) (hfiles : api₁.files = api₂.files)
    (hblobs : api₁.blobs = api₂.blobs)
    (hraws : ∀ u, u ≠ u0 → api₁.getRawRes u = api₂.getRawRes u)
    (hbad : api₁.getRawRes u0 = Except.error e0)
    (hwf : api₁.wfNamesB = true)
    (p : ParsedGitHubUrl) (hty : p.type = UrlType.directory) (fuel : Nat) :
    ((downloadRepository api₂ p fuel).2 = Except.ok true →
      (downloadRepository api₁ p fuel).2 = Except.ok true) ∧
    (downloadRepository api₁ p fuel).2 = (downloadRepository api₂ p fuel).2 ∧
    (downloadRepository api₁ p fuel).1.zip.length =
      (downloadRepository api₂ p fuel).1.zip.length ∧
    List.Forall₂ entryRel (downloadRepository api₁ p fuel).1.zip
      (downloadRepository api₂ p fuel).1.zip ∧
    (downloadRepository api₁ p fuel).1.events =
      (downloadRepository api₂ p fuel).1.events := by
  have h := fetchDirectoryContents_rel api₁ api₂ u0 e0 hfiles hblobs hraws hbad hdirs hwf
    p.owner p.repo p.branch fuel p.path "" ⟨[], []⟩ ⟨[], []⟩ ⟨rfl, List.Forall₂.nil⟩
  cases h1 : fetchDirectoryContents api₁ p.owner p.repo p.branch fuel p.path "" ⟨[], []⟩ with
  | mk s1 r1 =>
  cases h2 : fetchDirectoryContents api₂ p.owner p.repo p.branch fuel p.path "" ⟨[], []⟩ with
  | mk s2 r2 =>
  rw [h1, h2] at h
  obtain ⟨hrel, hres⟩ := h
  obtain rfl : r1 = r2 := hres
  cases r1 with
  | none =>
    have hd1 : downloadRepository api₁ p fuel =
        (emit (emit (emit s1 70 "Creating ZIP file...") 80 "Generating ZIP file...")
          90 "Starting download...", Except.ok true) := by
      have htb1 : tryBody api₁ p fuel =
          (emit (emit (emit s1 70 "Creating ZIP file...") 80 "Generating ZIP file...")
            90 "Starting download...", none) := by
        rw [tryBody, hty, h1]
      rw [downloadRepository, htb1]
    have hd2 : downloadRepository api₂ p fuel =
        (emit (emit (emit s2 70 "Creating ZIP file...") 80 "Generating ZIP file...")
          90 "Starting download...", Except.ok true) := by
      have htb2 : tryBody api₂ p fuel =
          (emit (emit (emit s2 70 "Creating ZIP file...") 80 "Generating ZIP file...")
            90 "Starting download...", none) := by
        rw [tryBody, hty, h2]
      rw [downloadRepository, htb2]
    rw [hd1, hd2]
    dsimp only [emit]
    exact ⟨fun _ => rfl, rfl, hrel.2.length_eq, hrel.2, by rw [hrel.1]⟩
  | some e =>
    have hd1 : downloadRepository api₁ p fuel = (s1, Except.error (mapCatch e)) := by
      have htb1 : tryBody api₁ p fuel = (s1, some e) := by
        rw [tryBody, hty, h1]
      rw [downloadRepository, htb1]
    have hd2 : downloadRepository api₂ p fuel = (s2, Except.error (mapCatch e)) := by
      have htb2 : tryBody api₂ p fuel = (s2, some e) := by
        rw [tryBody, hty, h2]
      rw [downloadRepository, htb2]
    rw [hd1, hd2]
    dsimp only []
    exact ⟨fun hk => hk, rfl, hrel.2.length_eq, hrel.2, hrel.1⟩

/-- Witness for C3: the two-file demo directory where `uB`'s raw fetch fails
with a network error, against the fully-successful variant. -/
theorem c3_single_file_failure_witness :
    demoApiC3.getRawRes "uB" = Except.error JsError.network ∧
    demoApiC3.wfNamesB = true ∧
    (((downloadRepository demoApiC3ok ⟨"o", "r", "main", "", UrlType.directory⟩ 2).2 =
          Except.ok true →
        (downloadRepository demoApiC3 ⟨"o", "r", "main", "", UrlType.directory⟩ 2).2 =
          Except.ok true) ∧
      (downloadRepository demoApiC3 ⟨"o", "r", "main", "", UrlType.directory⟩ 2).2 =
        (downloadRepository demoApiC3ok ⟨"o", "r", "main", "", UrlType.directory⟩ 2).2 ∧
      (downloadRepository demoApiC3 ⟨"o", "r", "main", "", UrlType.directory⟩ 2).1.zip.length =
        (downloadRepository demoApiC3ok
          ⟨"o", "r", "main", "", UrlType.directory⟩ 2).1.zip.length ∧
      List.Forall₂ entryRel
        (downloadRepository demoApiC3 ⟨"o", "r", "main", "", UrlType.directory⟩ 2).1.zip
        (downloadRepository demoApiC3ok ⟨"o", "r", "main", "", UrlType.directory⟩ 2).1.zip ∧
      (downloadRepository demoApiC3 ⟨"o", "r", "main", "", UrlType.directory⟩ 2).1.events =
        (downloadRepository demoApiC3ok ⟨"o", "r", "main", "", UrlType.directory⟩ 2).1.events) :=
  ⟨rfl, rfl,
    c3_single_file_failure demoApiC3 demoApiC3ok "uB" JsError.network rfl rfl rfl
      (fun u hu => by
        by_cases h : u = "uA"
        · subst h
          rfl
        · have h1 : ∀ (a b : Except JsError (List Nat)),
              lookupA u [("uA", a), ("uB", b)] = none := by
            intro a b
            rw [lookupA, if_neg h, lookupA, if_neg hu, lookupA]
          show (lookupA u [("uA", Except.ok [1]),
              ("uB", Except.error JsError.network)]).getD (Except.error (JsError.http 404)) =
            (lookupA u [("uA", Except.ok [1]),
              ("uB", Except.ok [2])]).getD (Except.error (JsError.http 404))
          rw [h1, h1])
      rfl rfl ⟨"o", "r", "main", "", UrlType.directory⟩ rfl 2⟩

end DownGit
